import Mathlib

namespace AppJs

/-! # Style manager (src/html_component.js)

The style bookkeeping of `Component`: each registry entry owns a
`styleCount` use counter and an optional `styleElem` style node; the
document head holds the style nodes in insertion order.  The constructor's
style loop (lines 75-91) and `__destroy`'s release loop (lines 114-126)
are modelled as pure state transformers.  Counts are `Int` so that the
"never negative" part of the spec is a real statement rather than an
artifact of truncated subtraction. -/

/-! Kernel-computable string primitives, semantically the JS
`toLowerCase`, `startsWith`, `endsWith`, `substring` operations (the
standard library versions operate on byte positions and do not reduce
inside the kernel). -/

def strLower (s : String) : String := String.mk (s.data.map Char.toLower)

def strStartsWith (s pre : String) : Bool := pre.data.isPrefixOf s.data

def strEndsWith (s suf : String) : Bool := suf.data.isSuffixOf s.data

def strDrop (s : String) (n : Nat) : String := String.mk (s.data.drop n)

def strDropRight (s : String) (n : Nat) : String := String.mk (s.data.take (s.data.length - n))

/-- The part of the browser-global state that the style manager touches:
`head` lists the ids of the style elements currently in `document.head`
in document order, `styleCount` is each registry entry's `styleCount`
field, and `styleElem` records whether that entry's `styleElem` field is
non-null.  Entries are identified by their registry key. -/
structure GState where
  head : List String
  styleCount : String → Int
  styleElem : String → Bool

/-- The state before any component has been constructed: no style
elements, all counts zero, all `styleElem` fields null. -/
def GState.init : GState := ⟨[], fun _ => 0, fun _ => false⟩

/-- `document.head.insertBefore(x, last)`: insert `x` immediately before
`last` when a reference node is given, else append `x` at the end. -/
def insertBeforeElem (x y : String) : List String → List String
  | [] => [x]
  | z :: zs => if z = y then x :: z :: zs else z :: insertBeforeElem x y zs

def insertBeforeOpt (x : String) : Option String → List String → List String
  | none, l => l ++ [x]
  | some y, l => insertBeforeElem x y l

/-- The style-acquisition loop of the `Component` constructor
(src/html_component.js lines 75-91).  `chain` is the entry's `ancestors`
array (as registry keys, most-derived first), `cssOf` gives each entry's
`css` text and `last` is the loop's `lastStyleElem` variable.  For each
ancestor with non-empty css: if its use count is zero, a style element is
created and inserted before the previously handled ancestor's element;
then the count is incremented and `lastStyleElem` updated. -/
def acquireStep (s : String) (last : Option String) (g : GState) : GState :=
  if g.styleCount s = 0 then
    { head := insertBeforeOpt s last g.head
      styleCount := Function.update g.styleCount s (g.styleCount s + 1)
      styleElem := Function.update g.styleElem s true }
  else
    { g with styleCount := Function.update g.styleCount s (g.styleCount s + 1) }

def acquireLoop (cssOf : String → String) : List String → Option String → GState → GState
  | [], _, g => g
  | s :: rest, last, g =>
    if cssOf s ≠ "" then
      acquireLoop cssOf rest (some s) (acquireStep s last g)
    else
      acquireLoop cssOf rest last g

/-- The style-release loop of `Component.__destroy`
(src/html_component.js lines 114-126).  For each ancestor whose
`styleElem` is non-null the count is decremented; when it reaches zero
the element is removed from the document head and the field is nulled. -/
def releaseStep (s : String) (g : GState) : GState :=
  if g.styleElem s then
    if g.styleCount s - 1 = 0 then
      { head := g.head.erase s
        styleCount := Function.update g.styleCount s (g.styleCount s - 1)
        styleElem := Function.update g.styleElem s false }
    else
      { g with styleCount := Function.update g.styleCount s (g.styleCount s - 1) }
  else g

def releaseLoop : List String → GState → GState
  | [], g => g
  | s :: rest, g => releaseLoop rest (releaseStep s g)

/-! ## The construct/destroy transition system

A state of the style layer together with the multiset of currently
mounted (live) component types.  `chainOf t` is the `ancestors` array
recorded for type `t` at registration time (most-derived first, `t`
itself at the head, the common base last), and `cssOf t` is `t`'s css
text.  Constructing an instance of `t` runs the acquire loop over `t`'s
chain; destroying a live instance runs the release loop. -/

structure StySt where
  g : GState
  live : List String

def StySt.init : StySt := ⟨GState.init, []⟩

def constructSty (chainOf : String → List String) (cssOf : String → String)
    (t : String) (st : StySt) : StySt :=
  ⟨acquireLoop cssOf (chainOf t) none st.g, t :: st.live⟩

def destroySty (chainOf : String → List String) (t : String) (st : StySt) : StySt :=
  ⟨releaseLoop (chainOf t) st.g, st.live.erase t⟩

/-- States reachable from the empty document by any sequence of component
constructions and destructions, where only a live instance can be
destroyed. -/
inductive ReachableSty (chainOf : String → List String) (cssOf : String → String) :
    StySt → Prop
  | init : ReachableSty chainOf cssOf StySt.init
  | construct (t : String) (st : StySt) :
      ReachableSty chainOf cssOf st →
      ReachableSty chainOf cssOf (constructSty chainOf cssOf t st)
  | destroy (t : String) (st : StySt) :
      ReachableSty chainOf cssOf st → t ∈ st.live →
      ReachableSty chainOf cssOf (destroySty chainOf t st)

/-- The shape that `Component.register` guarantees for the `ancestors`
arrays: every chain starts with the type itself, has no duplicates, and
the chain of any member of a chain is a suffix of that chain (walking the
prototype chain from a member continues identically). -/
def ChainsWF (chainOf : String → List String) : Prop :=
  ∀ t, (chainOf t).head? = some t ∧ (chainOf t).Nodup ∧
    ∀ s ∈ chainOf t, chainOf s <:+ chainOf t

/-- The number of live instances whose ancestor chain contains `s`. -/
def liveCount (chainOf : String → List String) (live : List String) (s : String) : Nat :=
  (live.filter (fun t => decide (s ∈ chainOf t))).length

/-- `s'` is a strict base type of `s`: it occurs in `s`'s ancestor chain
and is not `s` itself. -/
def StrictBase (chainOf : String → List String) (s' s : String) : Prop :=
  s' ∈ chainOf s ∧ s' ≠ s

/-- The inductive invariant of the style layer: the head has no duplicate
style elements (at most one per type), a style element is present exactly
for styled entries with positive use count, the `styleElem` field mirrors
presence in the head, the use count of a styled entry counts the live
instances whose chain contains it (unstyled entries stay at zero), and no
style element is preceded in the head by a style element of a strictly
more derived type. -/
structure StyInv (chainOf : String → List String) (cssOf : String → String)
    (st : StySt) : Prop where
  nodup : st.g.head.Nodup
  count_eq : ∀ s, st.g.styleCount s =
    if cssOf s ≠ "" then (liveCount chainOf st.live s : Int) else 0
  mem_iff : ∀ s, s ∈ st.g.head ↔ (cssOf s ≠ "" ∧ 0 < st.g.styleCount s)
  elem_iff : ∀ s, st.g.styleElem s = true ↔ s ∈ st.g.head
  ordered : st.g.head.Pairwise (fun a b => ¬ StrictBase chainOf b a)

/-- A concrete two-type registry used to instantiate the style-layer
theorems: type `d` extends type `b`, every other type stands alone. -/
def chainTwo : String → List String := fun t => if t = "d" then ["d", "b"] else [t]

/-- Concrete css assignment: every type declares non-empty style text. -/
def cssAll : String → String := fun _ => "c"

/-! # Document nodes (the mount layer of src/html_component.js)

Templates are modelled in parsed form: `HNode.elem` is an element with
its attribute list, its `classList`, the event listeners attached so far
and its ordered child nodes; `HNode.text` is any non-element node.  The
`children` collection of the DOM is the element members of the child
forest; iteration over live collections is modelled over a snapshot. -/

mutual
inductive HNode where
  | text (s : String)
  | elem (tag : String) (attrs : List (String × String)) (classes : List String)
      (listeners : List (String × String)) (children : HForest)
  deriving DecidableEq
inductive HForest where
  | nil
  | cons (hd : HNode) (tl : HForest)
  deriving DecidableEq
end

def HForest.append : HForest → HForest → HForest
  | .nil, f => f
  | .cons hd tl, f => .cons hd (tl.append f)

/-- `element.attributes.getNamedItem(name)`: the value of the first
attribute with the given name, if any. -/
def lookupAttr (attrs : List (String × String)) (name : String) : Option String :=
  (attrs.find? (fun p => p.1 == name)).map (fun p => p.2)

/-- `classList.add`: appends the class unless already present. -/
def classListAdd (cls : List String) (c : String) : List String :=
  if cls.contains c then cls else cls ++ [c]

/-- An attribute value after the `{{...}}` interpolation of
`_setComponents`: a plain string, a host method bound to the host
(`this[value] instanceof Function`), or another host property. -/
inductive AttrVal where
  | plain (s : String)
  | method (name : String)
  | prop (name : String)
  deriving DecidableEq

def AttrVal.asString : AttrVal → String
  | .plain s => s
  | .method n => n
  | .prop n => n

/-- `Component.Params` (src/html_component.js lines 408-428). -/
structure Params where
  ref : String
  attributes : List (String × AttrVal)
  children : HForest
  deriving DecidableEq

/-- `Component.RegistryEntry` (src/html_component.js lines 430-471):
`name` is `ComponentType.name`, `ancestors` the ancestor chain as
registry keys in the order `register` builds it (the entry itself first,
the common base last), `html` the parsed normalized template and `css`
the trimmed style text.  The mutable `styleElem`/`styleCount` fields
live in `GState`, keyed by the entry's registry key. -/
structure RegEntry where
  name : String
  ancestors : List String
  html : HForest
  css : String
  deriving DecidableEq

/-- The global component registry: `Component._registry`, a map from
lowercased type name to entry (newest binding first). -/
abbrev Registry := List (String × RegEntry)

def Registry.find (reg : Registry) (k : String) : Option RegEntry :=
  List.lookup k reg

/-- The construction-time error surface of the component runtime. -/
inductive CErr where
  | unregistered (name : String)
  | duplicateReference (ref : String)
  | missingHandler (event : String) (value : String)
  | duplicateRegistration (name : String)
  | invalidRegistry
  | nullParent
  | outOfFuel
  deriving DecidableEq

/-! A mounted component instance: its registry key, its `_ref`, its
`_rootNodes`, its owned child components (`_components`), its
element-ref map (`_elementRefs`) and its component-ref map
(`_componentRefs`). -/
mutual
inductive Instance where
  | mk (typeKey : String) (ref : String) (rootNodes : HForest)
      (components : InstList) (elementRefs : List (String × HNode))
      (componentRefs : CompRefs)
  deriving DecidableEq
inductive InstList where
  | nil
  | cons (c : Instance) (rest : InstList)
  deriving DecidableEq
inductive CompRefs where
  | nil
  | cons (name : String) (c : Instance) (rest : CompRefs)
  deriving DecidableEq
end

def Instance.typeKey : Instance → String
  | .mk k _ _ _ _ _ => k

def Instance.ref : Instance → String
  | .mk _ r _ _ _ _ => r

def Instance.rootNodes : Instance → HForest
  | .mk _ _ f _ _ _ => f

def Instance.components : Instance → InstList
  | .mk _ _ _ cs _ _ => cs

def Instance.elementRefs : Instance → List (String × HNode)
  | .mk _ _ _ _ er _ => er

def Instance.componentRefs : Instance → CompRefs
  | .mk _ _ _ _ _ cr => cr

/-- `__element(ref)`: the element recorded under the reference, else
null (src/html_component.js lines 134-136). -/
def Instance.elementLookup (inst : Instance) (r : String) : Option HNode :=
  List.lookup r inst.elementRefs

/-- `__component(ref)`: the child component recorded under the
reference, else null (src/html_component.js lines 143-145). -/
def CompRefs.lookup : CompRefs → String → Option Instance
  | .nil, _ => none
  | .cons n c rest, r => if n == r then some c else rest.lookup r

def Instance.componentLookup (inst : Instance) (r : String) : Option Instance :=
  inst.componentRefs.lookup r

def InstList.toList : InstList → List Instance
  | .nil => []
  | .cons c rest => c :: rest.toList

def toInstList : List Instance → InstList
  | [] => .nil
  | c :: rest => .cons c (toInstList rest)

def toCompRefs : List (String × Instance) → CompRefs
  | [] => .nil
  | (n, c) :: rest => .cons n c (toCompRefs rest)

/-! # Reference resolver (`_setRefs` / `_unsetRefs`,
src/html_component.js lines 229-262)

The walk starts at an element, stops at elements carrying the
`Component` class (nested component roots), records the element under
its `ref` attribute failing on duplicates, and recurses into element
children. -/

mutual
def setRefsN (acc : List (String × HNode)) : HNode → Except CErr (List (String × HNode))
  | .text _ => .ok acc
  | .elem tag attrs cls ls ch =>
    if cls.contains "Component" then .ok acc
    else
      match lookupAttr attrs "ref" with
      | some v =>
        if (List.lookup v acc).isSome then .error (.duplicateReference v)
        else setRefsF (acc ++ [(v, .elem tag attrs cls ls ch)]) ch
      | none => setRefsF acc ch
def setRefsF (acc : List (String × HNode)) : HForest → Except CErr (List (String × HNode))
  | .nil => .ok acc
  | .cons hd tl =>
    match setRefsN acc hd with
    | .error e => .error e
    | .ok acc1 => setRefsF acc1 tl
end

mutual
def unsetRefsN (acc : List (String × HNode)) : HNode → List (String × HNode)
  | .text _ => acc
  | .elem _ attrs cls _ ch =>
    if cls.contains "Component" then acc
    else
      match lookupAttr attrs "ref" with
      | some v => unsetRefsF (acc.filter (fun p => !(p.1 == v))) ch
      | none => unsetRefsF acc ch
def unsetRefsF (acc : List (String × HNode)) : HForest → List (String × HNode)
  | .nil => acc
  | .cons hd tl => unsetRefsF (unsetRefsN acc hd) tl
end

/-! # Event binder (`_setEventHandlersFromElemAttributes`,
src/html_component.js lines 325-350)

Every attribute whose name starts with `on` is treated as a declarative
handler: the event is the name minus `on`, lowercased; the value must
name a function-valued property of the host, else the scan throws; the
listener is attached and the attribute removed; then the children are
scanned. -/

def scanAttrs (methods : List String) : List (String × String) → Except CErr (List (String × String))
  | [] => .ok []
  | (n, v) :: rest =>
    if strStartsWith n "on" then
      if methods.contains v then
        match scanAttrs methods rest with
        | .error e => .error e
        | .ok tlrs => .ok ((strLower (strDrop n 2), v) :: tlrs)
      else .error (.missingHandler (strLower (strDrop n 2)) v)
    else scanAttrs methods rest

mutual
def eventScanN (methods : List String) : HNode → Except CErr HNode
  | .text s => .ok (.text s)
  | .elem tag attrs cls ls ch =>
    match scanAttrs methods attrs with
    | .error e => .error e
    | .ok pairs =>
      match eventScanF methods ch with
      | .error e => .error e
      | .ok ch1 =>
        .ok (.elem tag (attrs.filter (fun p => !(strStartsWith p.1 "on"))) cls (ls ++ pairs) ch1)
def eventScanF (methods : List String) : HForest → Except CErr HForest
  | .nil => .ok .nil
  | .cons hd tl =>
    match eventScanN methods hd with
    | .error e => .error e
    | .ok hd1 =>
      match eventScanF methods tl with
      | .error e => .error e
      | .ok tl1 => .ok (.cons hd1 tl1)
end

/-- The class-adding loop of the constructor (lines 67-71): each
ancestor's type name is added to a root element's class list. -/
def addClassesNode (names : List String) : HNode → HNode
  | .text s => .text s
  | .elem tag attrs cls ls ch => .elem tag attrs (names.foldl classListAdd cls) ls ch

/-! # Containment and teardown helpers -/

mutual
def containsOrSelfN : HNode → HNode → Bool
  | .text s, m => HNode.text s == m
  | .elem tag attrs cls ls ch, m =>
    (HNode.elem tag attrs cls ls ch == m) || containsOrSelfF ch m
def containsOrSelfF : HForest → HNode → Bool
  | .nil, _ => false
  | .cons hd tl, m => containsOrSelfN hd m || containsOrSelfF tl m
end

def anyRootIn (node : HNode) : HForest → Bool
  | .nil => false
  | .cons hd tl => containsOrSelfN node hd || anyRootIn node tl

def ancestorsOfKey (reg : Registry) (k : String) : List String :=
  ((Registry.find reg k).map (fun e => e.ancestors)).getD []

def cssOfKey (reg : Registry) : String → String :=
  fun k => ((Registry.find reg k).map (fun e => e.css)).getD ""

/-! `__destroy` (src/html_component.js lines 108-127) as seen by the
style layer: destroy all child components first, then release the style
usage of the full ancestor chain. -/
mutual
def destroyStyles (reg : Registry) : Instance → GState → GState
  | .mk k _ _ comps _ _, g => releaseLoop (ancestorsOfKey reg k) (destroyStylesL reg comps g)
def destroyStylesL (reg : Registry) : InstList → GState → GState
  | .nil, g => g
  | .cons c rest, g => destroyStylesL reg rest (destroyStyles reg c g)
end

/-- The component accumulator of a host under construction: its
`_components` set and `_componentRefs` map in insertion order. -/
structure HostAcc where
  components : List Instance
  componentRefs : List (String × Instance)

/-- `_unsetComponents(node)` (lines 310-319) with `__deleteComponent`
(lines 206-223): every owned component with a root node at or below
`node` is removed from the maps and destroyed. -/
def unsetCompsForNode (reg : Registry) (node : HNode) :
    List Instance → List (String × Instance) → GState →
    (List Instance × List (String × Instance) × GState)
  | [], crefs, g => ([], crefs, g)
  | c :: rest, crefs, g =>
    if anyRootIn node c.rootNodes then
      let crefs1 := if c.ref ≠ "" then crefs.filter (fun p => !(p.1 == c.ref)) else crefs
      let g1 := destroyStyles reg c g
      unsetCompsForNode reg node rest crefs1 g1
    else
      match unsetCompsForNode reg node rest crefs g with
      | (kept, crefs1, g1) => (c :: kept, crefs1, g1)

/-- The clearing pass of `__setHtml(element, '')` (lines 155-158): each
element child gives up its refs and its contained components. -/
def unsetPerChildren (reg : Registry) :
    HForest → List (String × HNode) → HostAcc → GState →
    (List (String × HNode) × HostAcc × GState)
  | .nil, erefs, acc, g => (erefs, acc, g)
  | .cons hd tl, erefs, acc, g =>
    match hd with
    | .text _ => unsetPerChildren reg tl erefs acc g
    | .elem tag attrs cls ls ch =>
      let nd := HNode.elem tag attrs cls ls ch
      let erefs1 := unsetRefsN erefs nd
      match unsetCompsForNode reg nd acc.components acc.componentRefs g with
      | (kept, crefs1, g1) => unsetPerChildren reg tl erefs1 ⟨kept, crefs1⟩ g1

/-! # Nested component mounting (`_setComponents`,
src/html_component.js lines 269-303)

For an element whose tag name is registered: build the params (the
`ref` is read from the still-empty params attribute map — the recorded
source behaviour), move the children out, construct the nested
component and splice its root nodes in place of the tag.  Otherwise
recurse into element children.  The nested constructor is passed in as
`cn`, closing the `construct → _setComponents → construct` cycle by
fuel. -/

def interpVal (methods : List String) (v : String) : AttrVal :=
  if strStartsWith v "\x7b\x7b" && strEndsWith v "\x7d\x7d" then
    if methods.contains (strDropRight (strDrop v 2) 2) then .method (strDropRight (strDrop v 2) 2)
    else .prop (strDropRight (strDrop v 2) 2)
  else .plain v

def mkParams (methods : List String) (attrs : List (String × String)) (children : HForest) : Params :=
  let p0 : Params := { ref := "", attributes := [], children := .nil }
  let p1 : Params := { p0 with ref := ((List.lookup "ref" p0.attributes).map AttrVal.asString).getD "" }
  let p2 : Params := { p1 with attributes := attrs.map (fun q => (q.1, interpVal methods q.2)) }
  { p2 with children := children }

mutual
def setCompsN (reg : Registry) (methods : List String)
    (cn : String → Params → GState → (Except CErr Instance) × GState) :
    HNode → HostAcc → GState → ((Except CErr (HForest × HostAcc)) × GState)
  | .text s, acc, g => (.ok (.cons (.text s) .nil, acc), g)
  | .elem tag attrs cls ls ch, acc, g =>
    match Registry.find reg (strLower tag) with
    | some entry =>
      let params := mkParams methods attrs ch
      match cn entry.name params g with
      | (.error e, g1) => (.error e, g1)
      | (.ok inst, g1) =>
        (.ok (inst.rootNodes,
          { components := acc.components ++ [inst]
            componentRefs :=
              if params.ref ≠ "" then acc.componentRefs ++ [(params.ref, inst)]
              else acc.componentRefs }), g1)
    | none =>
      match setCompsF reg methods cn ch acc g with
      | (.error e, g1) => (.error e, g1)
      | (.ok (ch1, acc1), g1) => (.ok (.cons (.elem tag attrs cls ls ch1) .nil, acc1), g1)
def setCompsF (reg : Registry) (methods : List String)
    (cn : String → Params → GState → (Except CErr Instance) × GState) :
    HForest → HostAcc → GState → ((Except CErr (HForest × HostAcc)) × GState)
  | .nil, acc, g => (.ok (.nil, acc), g)
  | .cons hd tl, acc, g =>
    match setCompsN reg methods cn hd acc g with
    | (.error e, g1) => (.error e, g1)
    | (.ok (hf, acc1), g1) =>
      match setCompsF reg methods cn tl acc1 g1 with
      | (.error e, g2) => (.error e, g2)
      | (.ok (tf, acc2), g2) => (.ok (hf.append tf, acc2), g2)
end

/-! # The content element (constructor lines 93-102)

When the element-ref map holds a `content` entry, the constructor
clears that element (`__setHtml(contentElement, '')`), appends the
instantiation's `params.children`, and re-runs `_setRefs` and
`_setComponents` on it.  The JS operates through the alias stored in
the ref map; here the element is relocated inside the processed root
forest by its `ref="content"` attribute following the same visibility
rule as the recording scan (nested component interiors are opaque; the
root elements themselves were recorded before class names were added,
so roots are always examined). -/

mutual
def contentN (reg : Registry) (methods : List String)
    (cn : String → Params → GState → (Except CErr Instance) × GState)
    (pch : HForest) (isRoot : Bool) :
    HNode → List (String × HNode) → HostAcc → GState →
    ((Except CErr (HNode × Bool × List (String × HNode) × HostAcc)) × GState)
  | .text s, erefs, acc, g => (.ok (.text s, false, erefs, acc), g)
  | .elem tag attrs cls ls ch, erefs, acc, g =>
    if !isRoot && cls.contains "Component" then
      (.ok (.elem tag attrs cls ls ch, false, erefs, acc), g)
    else if lookupAttr attrs "ref" == some "content" then
      let (erefs1, acc1, g1) := unsetPerChildren reg ch erefs acc g
      let node1 := HNode.elem tag attrs cls ls pch
      match setRefsN erefs1 node1 with
      | .error e => (.error e, g1)
      | .ok erefs2 =>
        match Registry.find reg (strLower tag) with
        | some entry =>
          let params2 := mkParams methods attrs pch
          match cn entry.name params2 g1 with
          | (.error e, g2) => (.error e, g2)
          | (.ok _, g2) => (.error .nullParent, g2)
        | none =>
          match setCompsF reg methods cn pch acc1 g1 with
          | (.error e, g2) => (.error e, g2)
          | (.ok (ch2, acc2), g2) =>
            (.ok (.elem tag attrs cls ls ch2, true, erefs2, acc2), g2)
    else
      match contentF reg methods cn pch false ch erefs acc g with
      | (.error e, g1) => (.error e, g1)
      | (.ok (ch1, found, erefs1, acc1), g1) =>
        (.ok (.elem tag attrs cls ls ch1, found, erefs1, acc1), g1)
def contentF (reg : Registry) (methods : List String)
    (cn : String → Params → GState → (Except CErr Instance) × GState)
    (pch : HForest) (isRoot : Bool) :
    HForest → List (String × HNode) → HostAcc → GState →
    ((Except CErr (HForest × Bool × List (String × HNode) × HostAcc)) × GState)
  | .nil, erefs, acc, g => (.ok (.nil, false, erefs, acc), g)
  | .cons hd tl, erefs, acc, g =>
    match contentN reg methods cn pch isRoot hd erefs acc g with
    | (.error e, g1) => (.error e, g1)
    | (.ok (hd1, true, erefs1, acc1), g1) => (.ok (.cons hd1 tl, true, erefs1, acc1), g1)
    | (.ok (hd1, false, erefs1, acc1), g1) =>
      match contentF reg methods cn pch isRoot tl erefs1 acc1 g1 with
      | (.error e, g2) => (.error e, g2)
      | (.ok (tl1, found, erefs2, acc2), g2) => (.ok (.cons hd1 tl1, found, erefs2, acc2), g2)
end

/-! # Root processing (constructor lines 48-73)

For every captured root node that is an element: `_setComponents`,
`_setRefs`, `_setEventHandlersFromElemAttributes`, then the ancestor
type names are added to its class list.  A root whose own tag is
registered is handed to `__insertComponent` against the template
fragment: the nested component's root nodes land in the fragment, which
is discarded, while the captured root array keeps the detached tag with
its children moved out. -/

def ancestorNamesOf (reg : Registry) : List String → Option (List String)
  | [] => some []
  | k :: rest =>
    match Registry.find reg k with
    | none => none
    | some e => (ancestorNamesOf reg rest).map (fun l => e.name :: l)

def processRootsF (reg : Registry) (methods : List String) (ancNames : List String)
    (cn : String → Params → GState → (Except CErr Instance) × GState) :
    HForest → List (String × HNode) → HostAcc → GState →
    ((Except CErr (HForest × List (String × HNode) × HostAcc)) × GState)
  | .nil, erefs, acc, g => (.ok (.nil, erefs, acc), g)
  | .cons hd tl, erefs, acc, g =>
    match hd with
    | .text s =>
      match processRootsF reg methods ancNames cn tl erefs acc g with
      | (.error e, g1) => (.error e, g1)
      | (.ok (tl1, erefs1, acc1), g1) => (.ok (.cons (.text s) tl1, erefs1, acc1), g1)
    | .elem tag attrs cls ls ch =>
      let step1 : ((Except CErr (HNode × HostAcc)) × GState) :=
        match Registry.find reg (strLower tag) with
        | some entry =>
          let params := mkParams methods attrs ch
          match cn entry.name params g with
          | (.error e, g1) => (.error e, g1)
          | (.ok inst, g1) =>
            (.ok (HNode.elem tag attrs cls ls .nil,
              { components := acc.components ++ [inst]
                componentRefs :=
                  if params.ref ≠ "" then acc.componentRefs ++ [(params.ref, inst)]
                  else acc.componentRefs }), g1)
        | none =>
          match setCompsF reg methods cn ch acc g with
          | (.error e, g1) => (.error e, g1)
          | (.ok (ch1, acc1), g1) => (.ok (HNode.elem tag attrs cls ls ch1, acc1), g1)
      match step1 with
      | (.error e, g1) => (.error e, g1)
      | (.ok (node1, acc1), g1) =>
        match setRefsN erefs node1 with
        | .error e => (.error e, g1)
        | .ok erefs1 =>
          match eventScanN methods node1 with
          | .error e => (.error e, g1)
          | .ok node2 =>
            match processRootsF reg methods ancNames cn tl erefs1 acc1 g1 with
            | (.error e, g2) => (.error e, g2)
            | (.ok (tl1, erefs2, acc2), g2) =>
              (.ok (.cons (addClassesNode ancNames node2) tl1, erefs2, acc2), g2)

/-! # The constructor (src/html_component.js lines 11-103)

Registry lookup (failing with `UnregisteredComponentError`), template
cloning and per-root processing, the ancestor style acquisition, then
the content step.  Fuel bounds the `constructor → _setComponents →
constructor` recursion depth (the JS call stack). -/

def construct : Nat → Registry → (String → List String) → String → Params → GState →
    (Except CErr Instance) × GState
  | 0, _, _, _, _, g => (.error .outOfFuel, g)
  | fuel+1, reg, methodsOf, clsName, params, g =>
    match Registry.find reg (strLower clsName) with
    | none => (.error (.unregistered clsName), g)
    | some entry =>
      match ancestorNamesOf reg entry.ancestors with
      | none => (.error .invalidRegistry, g)
      | some ancNames =>
        match processRootsF reg (methodsOf (strLower clsName)) ancNames
            (fun c p g2 => construct fuel reg methodsOf c p g2)
            entry.html [] ⟨[], []⟩ g with
        | (.error e, g1) => (.error e, g1)
        | (.ok (roots1, erefs1, acc1), g1) =>
          let g2 := acquireLoop (cssOfKey reg) entry.ancestors none g1
          if (List.lookup "content" erefs1).isSome then
            match contentF reg (methodsOf (strLower clsName))
                (fun c p g3 => construct fuel reg methodsOf c p g3)
                params.children true roots1 erefs1 acc1 g2 with
            | (.error e, g3) => (.error e, g3)
            | (.ok (roots2, _, erefs2, acc2), g3) =>
              (.ok (.mk (strLower clsName) params.ref roots2 (toInstList acc2.components)
                erefs2 (toCompRefs acc2.componentRefs)), g3)
          else
            (.ok (.mk (strLower clsName) params.ref roots1 (toInstList acc1.components)
              erefs1 (toCompRefs acc1.componentRefs)), g2)

/-! # Registration (`Component.register`, src/html_component.js lines
382-405, and the implicit base registration at line 482)

The register walk starts from the type itself (`entry.ancestors.push
(entry)`), then walks `Object.getPrototypeOf` until the common base
`Component`, appending each ancestor's registry key.  Registration
fails with `DuplicateRegistrationError` before any mutation when the
lowercased name is taken. -/

/-- The static class-side data `register` reads: the inheritance chain
and each class's `html`/`css` declarations (already parsed and
whitespace-normalized, as `RegistryEntry` stores them). -/
structure ClassDefs where
  parentOf : String → Option String
  htmlOf : String → HForest
  cssOf : String → String

def ancestorKeysWalk (parentOf : String → Option String) : Nat → String → Option (List String)
  | 0, _ => none
  | n+1, a =>
    if a = "Component" then some []
    else
      match parentOf a with
      | none => none
      | some p => (ancestorKeysWalk parentOf n p).map (fun l => strLower p :: l)

def registerComp (cd : ClassDefs) (fuel : Nat) (clsName : String) (rs : Registry) :
    (Except CErr Unit) × Registry :=
  if (Registry.find rs (strLower clsName)).isSome then
    (.error (.duplicateRegistration clsName), rs)
  else
    match ancestorKeysWalk cd.parentOf fuel clsName with
    | none => (.error .invalidRegistry, rs)
    | some ks =>
      (.ok (), (strLower clsName,
        { name := clsName
          ancestors := strLower clsName :: ks
          html := cd.htmlOf clsName
          css := cd.cssOf clsName }) :: rs)

/-! # Destruction order (`__destroy` lines 108-127 and
`__deleteComponent` lines 206-223)

The observable side effects of tearing a component down, as an event
trace: `__destroy` destroys every owned child component and then
releases the host's ancestor styles; `__deleteComponent` first removes
the component's root nodes from their parent, then calls `__destroy`. -/

inductive DEvent where
  | detachRoots (id : String)
  | styleRelease (id : String)
  deriving DecidableEq

mutual
inductive SInst where
  | node (id : String) (components : SList)
  deriving DecidableEq
inductive SList where
  | nil
  | cons (c : SInst) (rest : SList)
  deriving DecidableEq
end

def SInst.id : SInst → String
  | .node i _ => i

def SInst.components : SInst → SList
  | .node _ cs => cs

def SList.toList : SList → List SInst
  | .nil => []
  | .cons c rest => c :: rest.toList

mutual
def destroyTrace : SInst → List DEvent
  | .node i cs => destroyTraceL cs ++ [.styleRelease i]
def destroyTraceL : SList → List DEvent
  | .nil => []
  | .cons c rest => destroyTrace c ++ destroyTraceL rest
end

def deleteComponentTrace (c : SInst) : List DEvent :=
  .detachRoots c.id :: destroyTrace c

mutual
def allIds : SInst → List String
  | .node i cs => i :: allIdsL cs
def allIdsL : SList → List String
  | .nil => []
  | .cons c rest => allIds c ++ allIdsL rest
end

/-! # Concrete fixtures

A small registry as the spec's scenarios build it: the base
`Component` entry (registered at module load), a styled `Card` with one
`div` root, and a `Panel` whose template is the nested component tag
`<card ref="c1"></card>`. -/

def baseEntry : RegEntry :=
  { name := "Component", ancestors := ["component"], html := .nil, css := "" }

def cardEntry : RegEntry :=
  { name := "Card", ancestors := ["card", "component"]
    html := .cons (.elem "div" [] [] [] .nil) .nil, css := "c" }

def panelEntry : RegEntry :=
  { name := "Panel", ancestors := ["panel", "component"]
    html := .cons (.elem "card" [("ref", "c1")] [] [] .nil) .nil, css := "" }

def panelRegistry : Registry :=
  [("panel", panelEntry), ("card", cardEntry), ("component", baseEntry)]

/-- A `Panel` variant whose template mounts a styled nested `Card` and
then hits an element with an unresolvable `onClick` handler. -/
def panelBadEntry : RegEntry :=
  { name := "Panel", ancestors := ["panel", "component"]
    html := .cons (.elem "card" [] [] [] .nil)
      (.cons (.elem "div" [("onclick", "missingMethod")] [] [] .nil) .nil)
    css := "" }

def panelBadRegistry : Registry :=
  [("panel", panelBadEntry), ("card", cardEntry), ("component", baseEntry)]

def noMethods : String → List String := fun _ => []

def emptyParams : Params := { ref := "", attributes := [], children := .nil }

/-- Class-side data for the registration scenarios: `Card` extends
`Widget` extends `Component`. -/
def cardClassDefs : ClassDefs :=
  { parentOf := fun n =>
      if n = "Card" then some "Widget"
      else if n = "Widget" then some "Component"
      else none
    htmlOf := fun _ => .nil
    cssOf := fun _ => "" }

def regAfterComponent : Registry := (registerComp cardClassDefs 9 "Component" []).2

def regAfterWidget : Registry := (registerComp cardClassDefs 9 "Widget" regAfterComponent).2

def cardRegistryBuilt : Registry := (registerComp cardClassDefs 9 "Card" regAfterWidget).2

/-- A host with one owned child component, for the destruction-order
scenarios. -/
def hostWithChild : SInst := .node "h" (.cons (.node "c" .nil) .nil)

/-! # Scope predicates for the reference-isolation claims -/

mutual
/-- Every `ref` attribute value occurring anywhere in a node, nested
component interiors included. -/
def allRefNamesN : HNode → List String
  | .text _ => []
  | .elem _ attrs _ _ ch =>
    (match lookupAttr attrs "ref" with
     | some v => [v]
     | none => []) ++ allRefNamesF ch
def allRefNamesF : HForest → List String
  | .nil => []
  | .cons hd tl => allRefNamesN hd ++ allRefNamesF tl
end

mutual
/-- The `ref` attribute values visible to the `_setRefs` walk: elements
carrying the `Component` marker class and everything below them are
invisible. -/
def scanRefNamesN : HNode → List String
  | .text _ => []
  | .elem _ attrs cls _ ch =>
    if cls.contains "Component" then []
    else
      (match lookupAttr attrs "ref" with
       | some v => [v]
       | none => []) ++ scanRefNamesF ch
def scanRefNamesF : HForest → List String
  | .nil => []
  | .cons hd tl => scanRefNamesN hd ++ scanRefNamesF tl
end

mutual
/-- No element of the tree has a registered tag name: the template
mounts no nested components. -/
def NoRegTagsN (reg : Registry) : HNode → Bool
  | .text _ => true
  | .elem tag _ _ _ ch => (Registry.find reg (strLower tag)).isNone && NoRegTagsF reg ch
def NoRegTagsF (reg : Registry) : HForest → Bool
  | .nil => true
  | .cons hd tl => NoRegTagsN reg hd && NoRegTagsF reg tl
end

mutual
/-- Every `on`-prefixed attribute value in the tree names a host
method. -/
def AllHandlersN (methods : List String) : HNode → Bool
  | .text _ => true
  | .elem _ attrs _ _ ch =>
    attrs.all (fun p => !(strStartsWith p.1 "on") || methods.contains p.2) &&
      AllHandlersF methods ch
def AllHandlersF (methods : List String) : HForest → Bool
  | .nil => true
  | .cons hd tl => AllHandlersN methods hd && AllHandlersF methods tl
end

/-- An element node carrying the runtime's `Component` marker class (or
a non-element node). -/
def NodeMarked : HNode → Prop
  | .text _ => True
  | .elem _ _ cls _ _ => "Component" ∈ cls

def RootsMarked : HForest → Prop
  | .nil => True
  | .cons hd tl => NodeMarked hd ∧ RootsMarked tl

/-- The template recorded for a registry key. -/
def templateOf (reg : Registry) (k : String) : HForest :=
  ((Registry.find reg k).map (fun e => e.html)).getD .nil

mutual
/-- Reference scoping of a mounted instance: its component-ref map is
empty, every element-ref name is declared in its own type's template,
its element roots carry the `Component` marker, and the same holds
recursively for every owned child component. -/
def RefsScoped (reg : Registry) : Instance → Prop
  | .mk k _ roots comps erefs crefs =>
    crefs = .nil ∧
    (∀ p ∈ erefs, p.1 ∈ allRefNamesF (templateOf reg k)) ∧
    RootsMarked roots ∧
    RefsScopedL reg comps
def RefsScopedL (reg : Registry) : InstList → Prop
  | .nil => True
  | .cons c rest => RefsScoped reg c ∧ RefsScopedL reg rest
end

/-- Registry well-formedness as `register` establishes it: every
entry's chain contains the common base key, the common base entry is
named `Component`, and (for the reference-isolation claims) no stored
template uses the reserved `content` reference. -/
structure RegWF (reg : Registry) : Prop where
  base_mem : ∀ k e, Registry.find reg k = some e → "component" ∈ e.ancestors
  base_name : ∀ e, Registry.find reg "component" = some e → e.name = "Component"
  no_content : ∀ k e, Registry.find reg k = some e → "content" ∉ allRefNamesF e.html

/-- The result of mounting a `Panel` (whose template is
`<card ref="c1"></card>`) against the concrete registry. -/
def panelBuilt : (Except CErr Instance) × GState :=
  construct 5 panelRegistry noMethods "Panel" emptyParams GState.init

/-- A type whose template declares the same `ref` name twice in its own
scope. -/
def dupEntry : RegEntry :=
  { name := "Dup", ancestors := ["dup", "component"]
    html := .cons (.elem "div" [("ref", "x")] [] [] .nil)
      (.cons (.elem "span" [("ref", "x")] [] [] .nil) .nil)
    css := "" }

def dupRegistry : Registry :=
  [("dup", dupEntry), ("component", baseEntry)]

/-- A type whose template has no nested component tags but declares an
unresolvable `onClick` handler. -/
def badDivEntry : RegEntry :=
  { name := "Bad", ancestors := ["bad", "component"]
    html := .cons (.elem "div" [("ref", "r"), ("onClick", "missingMethod")] [] [] .nil) .nil
    css := "" }

def badDivRegistry : Registry :=
  [("bad", badDivEntry), ("component", baseEntry)]

end AppJs

namespace AppJs

/-! # Chain-structure lemmas -/

theorem chain_eq_cons_of_wf {chainOf : String → List String}
    (hwf : ChainsWF chainOf) (t : String) :
    ∃ l, chainOf t = t :: l := by
  rcases hwf t with ⟨h1, _, _⟩
  cases h : chainOf t with
  | nil => rw [h] at h1; simp at h1
  | cons a l => rw [h] at h1; simp at h1; exact ⟨l, by rw [h1]⟩

/-- Core structural fact about well-formed ancestor chains: every later
member of a chain lies in the chain of every earlier member. -/
theorem chain_pairwise_mem (chainOf : String → List String)
    (L : List String)
    (hsfx : ∀ s ∈ L, chainOf s <:+ L)
    (hhd : ∀ s ∈ L, (chainOf s).head? = some s)
    (hnd : L.Nodup) :
    L.Pairwise (fun a b => b ∈ chainOf a) := by
  induction L with
  | nil => exact List.Pairwise.nil
  | cons x M ih =>
    have hndM : M.Nodup := hnd.of_cons
    have hxM : x ∉ M := by
      intro hx
      exact (List.nodup_cons.mp hnd).1 hx
    have hx_chain : chainOf x = x :: M := by
      have hs : chainOf x <:+ x :: M := hsfx x (by simp)
      rcases List.suffix_cons_iff.mp hs with h | h
      · exact h
      · exfalso
        have hhx : (chainOf x).head? = some x := hhd x (by simp)
        have hxmem : x ∈ chainOf x := by
          cases hc : chainOf x with
          | nil => rw [hc] at hhx; simp at hhx
          | cons a l =>
            rw [hc] at hhx; simp at hhx
            simp [hc, hhx]
        exact hxM (h.mem hxmem)
    constructor
    · intro b hb
      rw [hx_chain]
      simp [hb]
    · apply ih
      · intro s hs
        have h2 : chainOf s <:+ x :: M := hsfx s (by simp [hs])
        rcases List.suffix_cons_iff.mp h2 with h | h
        · exfalso
          have hhs : (chainOf s).head? = some s := hhd s (by simp [hs])
          rw [h] at hhs
          simp at hhs
          rw [← hhs] at hs
          exact hxM hs
        · exact h
      · intro s hs
        exact hhd s (by simp [hs])
      · exact hndM

theorem chain_pairwise_mem_of_wf {chainOf : String → List String}
    (hwf : ChainsWF chainOf) (t : String) :
    (chainOf t).Pairwise (fun a b => b ∈ chainOf a) := by
  rcases hwf t with ⟨_, hnd, hsfx⟩
  exact chain_pairwise_mem chainOf (chainOf t) hsfx
    (fun s _ => (hwf s).1) hnd

/-- Antisymmetry of chain membership for well-formed chains. -/
theorem chain_mem_antisymm {chainOf : String → List String}
    (hwf : ChainsWF chainOf) {a b : String}
    (hab : a ∈ chainOf b) (hba : b ∈ chainOf a) : a = b := by
  have h1 : chainOf a <:+ chainOf b := (hwf b).2.2 a hab
  have h2 : chainOf b <:+ chainOf a := (hwf a).2.2 b hba
  have heq : chainOf a = chainOf b := h1.eq_of_length_le h2.length_le
  have ha : (chainOf a).head? = some a := (hwf a).1
  have hb : (chainOf b).head? = some b := (hwf b).1
  rw [heq, hb] at ha
  exact (Option.some_inj.mp ha).symm

/-- In a well-formed chain no strictly more base member comes first:
reading the chain most-derived-first, a later member is never a strict
derived type of an earlier one. -/
theorem chain_pairwise_not_strictbase {chainOf : String → List String}
    (hwf : ChainsWF chainOf) (t : String) :
    (chainOf t).Pairwise (fun a b => ¬ StrictBase chainOf a b) := by
  have h := chain_pairwise_mem_of_wf hwf t
  refine h.imp ?_
  intro a b hmem ⟨hab, hne⟩
  exact hne (chain_mem_antisymm hwf hab hmem)

/-- Members of a member's chain belong to the enclosing chain. -/
theorem mem_chain_trans {chainOf : String → List String}
    (hwf : ChainsWF chainOf) {s t u : String}
    (h1 : s ∈ chainOf t) (h2 : u ∈ chainOf s) : u ∈ chainOf t :=
  ((hwf t).2.2 s h1).subset h2

/-! # Acquire-loop characterization -/

theorem insertBeforeElem_spec (x y : String) (A B : List String) (hA : y ∉ A) :
    insertBeforeElem x y (A ++ y :: B) = A ++ x :: y :: B := by
  induction A with
  | nil => simp [insertBeforeElem]
  | cons a A ih =>
    have hay : a ≠ y := by intro h; exact hA (by simp [h])
    simp only [List.cons_append, insertBeforeElem, if_neg hay]
    show a :: insertBeforeElem x y (A ++ y :: B) = a :: (A ++ x :: y :: B)
    rw [ih (by intro h; exact hA (by simp [h]))]

/-- Running the acquire loop over ancestors whose styles are all already
in use bumps their counts and changes nothing else. -/
theorem acquireLoop_existing (cssOf : String → String) :
    ∀ (E : List String) (last : Option String) (g : GState),
    (∀ s ∈ E, cssOf s ≠ "") → (∀ s ∈ E, 0 < g.styleCount s) →
    (acquireLoop cssOf E last g).head = g.head ∧
    (∀ x, (acquireLoop cssOf E last g).styleElem x = g.styleElem x) ∧
    (∀ x, (acquireLoop cssOf E last g).styleCount x =
      g.styleCount x + (E.count x : Int)) := by
  intro E
  induction E with
  | nil => intro last g _ _; simp [acquireLoop]
  | cons s rest ih =>
    intro last g hcss hpos
    have hs : cssOf s ≠ "" := hcss s (by simp)
    have hpos_s : 0 < g.styleCount s := hpos s (by simp)
    have hstep : acquireStep s last g =
        { g with styleCount := Function.update g.styleCount s (g.styleCount s + 1) } := by
      unfold acquireStep
      rw [if_neg (by omega)]
    have hloop : acquireLoop cssOf (s :: rest) last g =
        acquireLoop cssOf rest (some s) (acquireStep s last g) := by
      simp [acquireLoop, hs]
    rw [hloop, hstep]
    have ihr := ih (some s)
      { g with styleCount := Function.update g.styleCount s (g.styleCount s + 1) }
      (fun x hx => hcss x (by simp [hx]))
      (fun x hx => by
        simp only [Function.update_apply]
        split
        · omega
        · exact hpos x (by simp [hx]))
    refine ⟨ihr.1, ihr.2.1, ?_⟩
    intro x
    rw [ihr.2.2 x]
    simp only [Function.update_apply]
    by_cases hxs : x = s
    · subst hxs
      rw [if_pos rfl, List.count_cons_self]
      push_cast
      ring
    · rw [if_neg hxs]
      have hc : (s :: rest).count x = rest.count x := by
        simp [List.count_cons, hxs]
      rw [hc]

/-- Running the acquire loop over a chain `F ++ E` whose fresh (count
zero) part `F` comes first appends the fresh styles, base-to-derived, at
the position described by `last`, bumps every count once, and marks the
fresh elements as present. -/
theorem acquireLoop_spec (cssOf : String → String) :
    ∀ (F : List String) (E : List String) (g : GState) (A tl : List String)
      (last : Option String),
    (∀ s ∈ F ++ E, cssOf s ≠ "") →
    (∀ f ∈ F, g.styleCount f = 0) →
    (∀ f ∈ F, f ∉ g.head) →
    F.Nodup →
    (∀ e ∈ E, 0 < g.styleCount e) →
    g.head = A ++ tl →
    (match last with
     | none => tl = []
     | some y => tl.head? = some y ∧ y ∉ A ∧ y ∉ F) →
    (acquireLoop cssOf (F ++ E) last g).head = A ++ F.reverse ++ tl ∧
    (∀ x, (acquireLoop cssOf (F ++ E) last g).styleElem x =
      (g.styleElem x || decide (x ∈ F))) ∧
    (∀ x, (acquireLoop cssOf (F ++ E) last g).styleCount x =
      g.styleCount x + ((F ++ E).count x : Int)) := by
  intro F
  induction F with
  | nil =>
    intro E g A tl last hcss _ _ _ hE hdec hlast
    have h := acquireLoop_existing cssOf E last g (by simpa using hcss) hE
    refine ⟨by rw [List.nil_append, h.1, hdec]; simp, ?_, ?_⟩
    · intro x; rw [List.nil_append, h.2.1 x]; simp
    · intro x; rw [List.nil_append, h.2.2 x]
  | cons f F' ih =>
    intro E g A tl last hcss hF0 hFh hFnd hE hdec hlast
    have hf : cssOf f ≠ "" := hcss f (by simp)
    have hf0 : g.styleCount f = 0 := hF0 f (by simp)
    have hloop : acquireLoop cssOf ((f :: F') ++ E) last g =
        acquireLoop cssOf (F' ++ E) (some f) (acquireStep f last g) := by
      simp [acquireLoop, hf]
    have hstep : acquireStep f last g =
        { head := insertBeforeOpt f last g.head
          styleCount := Function.update g.styleCount f (g.styleCount f + 1)
          styleElem := Function.update g.styleElem f true } := by
      unfold acquireStep
      rw [if_pos hf0]
    have hins : insertBeforeOpt f last g.head = A ++ f :: tl := by
      cases last with
      | none =>
        have htl : tl = [] := hlast
        subst htl
        simp [insertBeforeOpt, hdec]
      | some y =>
        obtain ⟨hy, hyA, _⟩ := hlast
        obtain ⟨tl', htl'⟩ : ∃ tl', tl = y :: tl' := by
          cases tl with
          | nil => simp at hy
          | cons a t => simp at hy; exact ⟨t, by rw [hy]⟩
        subst htl'
        simp only [insertBeforeOpt]
        rw [hdec, insertBeforeElem_spec f y A tl' hyA]
    have hfA : f ∉ A := fun h => hFh f (by simp) (by rw [hdec]; simp [h])
    have hfF' : f ∉ F' := (List.nodup_cons.mp hFnd).1
    have ihr := ih E (acquireStep f last g) A (f :: tl) (some f)
      (fun x hx => hcss x (by simp at hx ⊢; tauto))
      (fun x hx => by
        rw [hstep]
        simp only [Function.update_apply]
        rw [if_neg (by intro h; rw [h] at hx; exact hfF' hx)]
        exact hF0 x (by simp [hx]))
      (fun x hx => by
        rw [hstep, hins]
        simp only [List.mem_append, List.mem_cons]
        push_neg
        have hxg : x ∉ g.head := hFh x (by simp [hx])
        rw [hdec] at hxg
        simp only [List.mem_append] at hxg
        push_neg at hxg
        exact ⟨hxg.1, fun h => (by rw [h] at hx; exact hfF' hx), hxg.2⟩)
      (hFnd.of_cons)
      (fun e he => by
        rw [hstep]
        simp only [Function.update_apply]
        split
        · omega
        · exact hE e he)
      (by rw [hstep, hins])
      (by exact ⟨rfl, hfA, hfF'⟩)
    rw [hloop]
    refine ⟨?_, ?_, ?_⟩
    · rw [ihr.1]
      simp
    · intro x
      rw [ihr.2.1 x, hstep]
      simp only [Function.update_apply]
      by_cases hxf : x = f
      · subst hxf; simp
      · rw [if_neg hxf]
        simp [hxf]
    · intro x
      rw [ihr.2.2 x, hstep]
      simp only [Function.update_apply]
      by_cases hxf : x = f
      · rw [if_pos hxf, hxf, hf0]
        have hc : ((f :: F') ++ E).count f = ((F' ++ E).count f) + 1 := by
          simp [List.count_cons]
        rw [hc]
        push_cast
        ring
      · rw [if_neg hxf]
        have hc : ((f :: F') ++ E).count x = (F' ++ E).count x := by
          rw [List.cons_append]
          simp [List.count_cons, hxf]
        rw [hc]

/-! # Release-loop characterization -/

/-- Effect of `__destroy`'s style-release loop: every chain member whose
style element is present has its count decremented; the elements whose
count hits zero are removed from the head and nulled. -/
theorem releaseLoop_spec :
    ∀ (chain : List String) (g : GState),
    chain.Nodup → g.head.Nodup →
    (∀ s ∈ chain, g.styleElem s = true → 0 < g.styleCount s) →
    (releaseLoop chain g).head =
      g.head.filter
        (fun x => !(decide (x ∈ chain) && g.styleElem x && decide (g.styleCount x = 1))) ∧
    (∀ x, (releaseLoop chain g).styleCount x =
      if x ∈ chain ∧ g.styleElem x = true then g.styleCount x - 1 else g.styleCount x) ∧
    (∀ x, (releaseLoop chain g).styleElem x =
      (g.styleElem x && !(decide (x ∈ chain) && decide (g.styleCount x = 1)))) := by
  intro chain
  induction chain with
  | nil =>
    intro g _ _ _
    refine ⟨?_, fun x => by simp [releaseLoop], fun x => by simp [releaseLoop]⟩
    simp [releaseLoop]
  | cons s rest ih =>
    intro g hnd hhead hpos
    have hsr : s ∉ rest := (List.nodup_cons.mp hnd).1
    have hloop : releaseLoop (s :: rest) g = releaseLoop rest (releaseStep s g) := rfl
    by_cases helem : g.styleElem s = true
    · have hposs : 0 < g.styleCount s := hpos s (by simp) helem
      by_cases hone : g.styleCount s = 1
      · -- the count reaches zero: the element is removed
        have hstep : releaseStep s g =
            { head := g.head.erase s
              styleCount := Function.update g.styleCount s (g.styleCount s - 1)
              styleElem := Function.update g.styleElem s false } := by
          unfold releaseStep
          rw [if_pos helem, if_pos (by omega)]
        have hg1nd : (g.head.erase s).Nodup := hhead.erase s
        have ihr := ih (releaseStep s g) (hnd.of_cons)
          (by rw [hstep]; exact hg1nd)
          (fun x hx hex => by
            rw [hstep] at hex ⊢
            simp only [Function.update_apply] at hex ⊢
            have hxs : x ≠ s := by
              intro h; rw [if_pos h] at hex; simp at hex
            rw [if_neg hxs] at hex ⊢
            exact hpos x (by simp [hx]) hex)
        refine ⟨?_, ?_, ?_⟩
        · rw [hloop, ihr.1, hstep]
          have herase : g.head.erase s =
              g.head.filter (fun x => !(decide (x = s))) := by
            rw [hhead.erase_eq_filter]
            apply List.filter_congr
            intro a _
            by_cases h : a = s
            · subst h; simp
            · simp [h, Ne.symm h]
          rw [herase, List.filter_filter]
          apply List.filter_congr
          intro a _
          simp only [Function.update_apply]
          by_cases has : a = s
          · subst has
            simp [helem, hone]
          · by_cases har : a ∈ rest
            · simp [has, har]
            · simp [has, har]
        · intro x
          rw [hloop, ihr.2.1 x, hstep]
          simp only [Function.update_apply]
          by_cases hxs : x = s
          · subst hxs
            simp [hsr, helem]
          · by_cases hxr : x ∈ rest
            · simp [hxs, hxr]
            · simp [hxs, hxr]
        · intro x
          rw [hloop, ihr.2.2 x, hstep]
          simp only [Function.update_apply]
          by_cases hxs : x = s
          · subst hxs
            simp [helem, hone]
          · by_cases hxr : x ∈ rest
            · simp [hxs, hxr]
            · simp [hxs, hxr]
      · -- the count stays positive: only the counter changes
        have hstep : releaseStep s g =
            { g with styleCount := Function.update g.styleCount s (g.styleCount s - 1) } := by
          unfold releaseStep
          rw [if_pos helem, if_neg (by omega)]
        have ihr := ih (releaseStep s g) (hnd.of_cons)
          (by rw [hstep]; exact hhead)
          (fun x hx hex => by
            rw [hstep] at hex ⊢
            simp only [Function.update_apply]
            split
            · omega
            · exact hpos x (by simp [hx]) hex)
        refine ⟨?_, ?_, ?_⟩
        · rw [hloop, ihr.1, hstep]
          apply List.filter_congr
          intro a _
          simp only [Function.update_apply]
          by_cases has : a = s
          · subst has
            simp [helem, hone, hsr]
          · by_cases har : a ∈ rest
            · simp [has, har]
            · simp [has, har]
        · intro x
          rw [hloop, ihr.2.1 x, hstep]
          simp only [Function.update_apply]
          by_cases hxs : x = s
          · subst hxs
            simp [hsr, helem]
          · by_cases hxr : x ∈ rest
            · simp [hxs, hxr]
            · simp [hxs, hxr]
        · intro x
          rw [hloop, ihr.2.2 x, hstep]
          simp only [Function.update_apply]
          by_cases hxs : x = s
          · subst hxs
            simp [helem, hone, hsr]
          · by_cases hxr : x ∈ rest
            · simp [hxs, hxr]
            · simp [hxs, hxr]
    · -- null style element: nothing happens for this member
      have hstep : releaseStep s g = g := by
        unfold releaseStep
        rw [if_neg (by simpa using helem)]
      have ihr := ih g (hnd.of_cons) hhead (fun x hx => hpos x (by simp [hx]))
      rw [hloop, hstep]
      refine ⟨?_, ?_, ?_⟩
      · rw [ihr.1]
        apply List.filter_congr
        intro a _
        by_cases has : a = s
        · subst has
          simp [helem]
        · by_cases har : a ∈ rest
          · simp [has, har]
          · simp [has, har]
      · intro x
        rw [ihr.2.1 x]
        by_cases hxs : x = s
        · subst hxs
          simp [hsr, helem]
        · by_cases hxr : x ∈ rest
          · simp [hxs, hxr]
          · simp [hxs, hxr]
      · intro x
        rw [ihr.2.2 x]
        by_cases hxs : x = s
        · subst hxs
          simp [helem]
        · by_cases hxr : x ∈ rest
          · simp [hxs, hxr]
          · simp [hxs, hxr]

/-- Monotone count comparison: a type's live count never exceeds that of
any of its bases. -/
theorem liveCount_mono {chainOf : String → List String}
    (hwf : ChainsWF chainOf) (live : List String) {s s' : String}
    (h : s' ∈ chainOf s) :
    liveCount chainOf live s ≤ liveCount chainOf live s' := by
  unfold liveCount
  rw [← List.countP_eq_length_filter, ← List.countP_eq_length_filter]
  apply List.countP_mono_left
  intro t _ ht
  simp only [decide_eq_true_eq] at *
  exact mem_chain_trans hwf ht h

theorem liveCount_pos_of_mem {chainOf : String → List String}
    {live : List String} {t s : String} (ht : t ∈ live) (hs : s ∈ chainOf t) :
    0 < liveCount chainOf live s := by
  unfold liveCount
  rw [List.length_pos]
  intro hemp
  have : t ∈ live.filter (fun u => decide (s ∈ chainOf u)) :=
    List.mem_filter.mpr ⟨ht, by simp [hs]⟩
  rw [hemp] at this
  simp at this

theorem length_filter_erase {α : Type} [DecidableEq α] (p : α → Bool) :
    ∀ (l : List α) (a : α), a ∈ l →
    ((l.erase a).filter p).length + (if p a then 1 else 0) = (l.filter p).length := by
  intro l
  induction l with
  | nil => intro a ha; simp at ha
  | cons b l' ih =>
    intro a ha
    by_cases hba : b = a
    · subst hba
      rw [List.erase_cons_head]
      by_cases hpb : p b = true
      · rw [List.filter_cons_of_pos hpb, if_pos hpb]
        simp
      · rw [List.filter_cons_of_neg (by simpa using hpb), if_neg hpb]
        simp
    · have ha' : a ∈ l' := by
        rcases List.mem_cons.mp ha with h | h
        · exact absurd h.symm hba
        · exact h
      rw [List.erase_cons_tail (by simpa using hba)]
      by_cases hpb : p b = true
      · rw [List.filter_cons_of_pos hpb, List.filter_cons_of_pos hpb]
        simp only [List.length_cons]
        rw [Nat.add_right_comm, ih a ha']
      · rw [List.filter_cons_of_neg (by simpa using hpb),
          List.filter_cons_of_neg (by simpa using hpb)]
        exact ih a ha'

theorem liveCount_erase {chainOf : String → List String}
    {live : List String} {t : String} (ht : t ∈ live) (s : String) :
    liveCount chainOf (live.erase t) s +
      (if s ∈ chainOf t then 1 else 0) = liveCount chainOf live s := by
  unfold liveCount
  have h := length_filter_erase (fun u => decide (s ∈ chainOf u)) live t ht
  by_cases hst : s ∈ chainOf t
  · rw [if_pos hst]
    rw [if_pos (by simp [hst])] at h
    exact h
  · rw [if_neg hst]
    rw [if_neg (by simp [hst])] at h
    simpa using h

/-- A list whose elements satisfying `q` are closed under "appearing
earlier" splits as its `q` part followed by its non-`q` part. -/
theorem filter_split_of_pairwise {α : Type} (q : α → Bool) :
    ∀ (l : List α), l.Pairwise (fun a b => q b = true → q a = true) →
    l = l.filter q ++ l.filter (fun x => !(q x)) := by
  intro l
  induction l with
  | nil => simp
  | cons x l' ih =>
    intro hp
    rcases List.pairwise_cons.mp hp with ⟨hx, hp'⟩
    by_cases hqx : q x = true
    · rw [List.filter_cons_of_pos hqx, List.filter_cons_of_neg (by simp [hqx])]
      rw [List.cons_append]
      congr 1
      exact ih hp'
    · have hnone : ∀ b ∈ l', ¬ (q b = true) := fun b hb hq => hqx (hx b hb hq)
      have h1 : l'.filter q = [] := by
        rw [List.filter_eq_nil_iff]
        exact hnone
      have h2 : l'.filter (fun b => !(q b)) = l' := by
        rw [List.filter_eq_self]
        intro b hb
        simp [hnone b hb]
      rw [List.filter_cons_of_neg (by simpa using hqx),
        List.filter_cons_of_pos (by simp [hqx]), h1, h2]
      simp

/-- Ancestors with empty css are skipped entirely by the acquire loop. -/
theorem acquireLoop_filter_styled (cssOf : String → String) :
    ∀ (chain : List String) (last : Option String) (g : GState),
    acquireLoop cssOf chain last g =
      acquireLoop cssOf (chain.filter (fun s => decide (cssOf s ≠ ""))) last g := by
  intro chain
  induction chain with
  | nil => intro last g; simp
  | cons s rest ih =>
    intro last g
    by_cases hs : cssOf s ≠ ""
    · rw [List.filter_cons_of_pos (by simp [hs])]
      show acquireLoop cssOf (s :: rest) last g = _
      simp only [acquireLoop, if_pos hs]
      exact ih (some s) (acquireStep s last g)
    · rw [List.filter_cons_of_neg (by simpa using hs)]
      show acquireLoop cssOf (s :: rest) last g = _
      simp only [acquireLoop, if_neg hs]
      exact ih last g

/-! # Invariant preservation -/

/-- Constructing an instance of any type preserves the style invariant. -/
theorem styInv_construct {chainOf : String → List String} {cssOf : String → String}
    (hwf : ChainsWF chainOf) {st : StySt}
    (inv : StyInv chainOf cssOf st) (t : String) :
    StyInv chainOf cssOf (constructSty chainOf cssOf t st) := by
  classical
  have hCnd : ((chainOf t).filter (fun s => decide (cssOf s ≠ ""))).Nodup :=
    ((hwf t).2.1).filter _
  set C := (chainOf t).filter (fun s => decide (cssOf s ≠ "")) with hC
  set F := C.filter (fun s => decide (st.g.styleCount s = 0)) with hF
  set E := C.filter (fun s => !(decide (st.g.styleCount s = 0))) with hE
  have hmemC : ∀ x, x ∈ C ↔ (x ∈ chainOf t ∧ cssOf x ≠ "") := by
    intro x
    rw [hC, List.mem_filter]
    simp
  have hmemF : ∀ x, x ∈ F ↔ (x ∈ C ∧ st.g.styleCount x = 0) := by
    intro x
    rw [hF, List.mem_filter]
    simp
  have hcount_nonneg : ∀ x, 0 ≤ st.g.styleCount x := by
    intro x
    rw [inv.count_eq x]
    split
    · exact Int.natCast_nonneg _
    · exact le_refl 0
  have hpc : C.Pairwise (fun a b => b ∈ chainOf a) :=
    List.Pairwise.sublist (List.filter_sublist _) (chain_pairwise_mem_of_wf hwf t)
  have hpairC : C.Pairwise (fun a b =>
      decide (st.g.styleCount b = 0) = true → decide (st.g.styleCount a = 0) = true) := by
    refine hpc.imp_of_mem ?_
    intro a b ha hb hmem hqb
    have hsa : cssOf a ≠ "" := ((hmemC a).mp ha).2
    have hsb : cssOf b ≠ "" := ((hmemC b).mp hb).2
    have hca := inv.count_eq a
    have hcb := inv.count_eq b
    rw [if_pos hsa] at hca
    rw [if_pos hsb] at hcb
    have hmono := liveCount_mono hwf st.live hmem
    simp only [decide_eq_true_eq] at hqb ⊢
    rw [hcb] at hqb
    rw [hca]
    omega
  have hsplit : C = F ++ E :=
    filter_split_of_pairwise (fun s => decide (st.g.styleCount s = 0)) C hpairC
  have hall : ∀ s ∈ F ++ E, cssOf s ≠ "" := by
    intro s hs
    rw [← hsplit] at hs
    exact ((hmemC s).mp hs).2
  have hF0 : ∀ f ∈ F, st.g.styleCount f = 0 := fun f hf => ((hmemF f).mp hf).2
  have hFh : ∀ f ∈ F, f ∉ st.g.head := by
    intro f hf hmem
    have h := (inv.mem_iff f).mp hmem
    have h0 := hF0 f hf
    omega
  have hFnd : F.Nodup := hCnd.filter _
  have hEpos : ∀ e ∈ E, 0 < st.g.styleCount e := by
    intro e he
    have hne : st.g.styleCount e ≠ 0 := by
      rw [hE, List.mem_filter] at he
      simpa using he.2
    have := hcount_nonneg e
    omega
  have hspec := acquireLoop_spec cssOf F E st.g st.g.head [] none hall hF0 hFh hFnd
    hEpos (by simp) rfl
  have hg : (constructSty chainOf cssOf t st).g = acquireLoop cssOf (F ++ E) none st.g := by
    show acquireLoop cssOf (chainOf t) none st.g = _
    rw [acquireLoop_filter_styled cssOf (chainOf t) none st.g, ← hC, hsplit]
  have hhead2 : (acquireLoop cssOf (F ++ E) none st.g).head = st.g.head ++ F.reverse := by
    rw [hspec.1]
    simp
  refine ⟨?_, ?_, ?_, ?_, ?_⟩
  · -- nodup
    rw [hg, hhead2]
    refine inv.nodup.append ((List.nodup_reverse).mpr hFnd) ?_
    intro x hxh hxf
    rw [List.mem_reverse] at hxf
    exact hFh x hxf hxh
  · -- count_eq
    intro s
    rw [hg, hspec.2.2 s, ← hsplit]
    rw [inv.count_eq s]
    show _ = if cssOf s ≠ "" then ((liveCount chainOf (t :: st.live) s : Int)) else 0
    by_cases hsty : cssOf s ≠ ""
    · rw [if_pos hsty, if_pos hsty]
      have hlc : liveCount chainOf (t :: st.live) s =
          liveCount chainOf st.live s + (if s ∈ chainOf t then 1 else 0) := by
        unfold liveCount
        by_cases hmem : s ∈ chainOf t
        · rw [List.filter_cons_of_pos (by simp [hmem]), if_pos hmem]
          simp [Nat.add_comm]
        · rw [List.filter_cons_of_neg (by simp [hmem]), if_neg hmem]
          simp
      rw [hlc]
      have hccount : C.count s = if s ∈ chainOf t then 1 else 0 := by
        by_cases hmem : s ∈ chainOf t
        · rw [if_pos hmem]
          exact List.count_eq_one_of_mem hCnd ((hmemC s).mpr ⟨hmem, hsty⟩)
        · rw [if_neg hmem]
          rw [List.count_eq_zero]
          intro hsc
          exact hmem ((hmemC s).mp hsc).1
      rw [hccount]
      by_cases hmem : s ∈ chainOf t
      · rw [if_pos hmem]
        push_cast
        ring
      · rw [if_neg hmem]
        push_cast
        ring
    · rw [if_neg hsty, if_neg hsty]
      have hz : C.count s = 0 := by
        rw [List.count_eq_zero]
        intro hsc
        exact hsty ((hmemC s).mp hsc).2
      rw [hz]
      simp
  · -- mem_iff
    intro s
    rw [hg, hhead2, hspec.2.2 s]
    constructor
    · intro hmem
      rcases List.mem_append.mp hmem with hmem | hmem
      · have h := (inv.mem_iff s).mp hmem
        refine ⟨h.1, ?_⟩
        have hnn : (0:Int) ≤ ((F ++ E).count s : Int) := Int.natCast_nonneg _
        have h2 := h.2
        omega
      · rw [List.mem_reverse] at hmem
        have hsC : s ∈ C := ((hmemF s).mp hmem).1
        have hsty := ((hmemC s).mp hsC).2
        refine ⟨hsty, ?_⟩
        have h0 : st.g.styleCount s = 0 := ((hmemF s).mp hmem).2
        have h1 : (F ++ E).count s = 1 := by
          rw [← hsplit]
          exact List.count_eq_one_of_mem hCnd hsC
        rw [h0, h1]
        simp
    · rintro ⟨hsty, hpos⟩
      by_cases hmemH : s ∈ st.g.head
      · exact List.mem_append.mpr (Or.inl hmemH)
      by_cases hmemF2 : s ∈ F
      · exact List.mem_append.mpr (Or.inr (List.mem_reverse.mpr hmemF2))
      exfalso
      have hc0 : st.g.styleCount s = 0 := by
        have hnn := hcount_nonneg s
        by_contra hne
        exact hmemH ((inv.mem_iff s).mpr ⟨hsty, by omega⟩)
      have hsC : s ∉ C := by
        intro hsC
        exact hmemF2 ((hmemF s).mpr ⟨hsC, hc0⟩)
      have hcnt : (F ++ E).count s = 0 := by
        rw [← hsplit, List.count_eq_zero]
        exact hsC
      rw [hc0, hcnt] at hpos
      simp at hpos
  · -- elem_iff
    intro s
    rw [hg, hspec.2.1 s, hhead2]
    simp only [Bool.or_eq_true, decide_eq_true_eq, List.mem_append, List.mem_reverse]
    constructor
    · rintro (h | h)
      · exact Or.inl ((inv.elem_iff s).mp h)
      · exact Or.inr h
    · rintro (h | h)
      · exact Or.inl ((inv.elem_iff s).mpr h)
      · exact Or.inr h
  · -- ordered
    rw [hg, hhead2]
    rw [List.pairwise_append]
    refine ⟨inv.ordered, ?_, ?_⟩
    · rw [List.pairwise_reverse]
      have h := chain_pairwise_not_strictbase hwf t
      have hsubF : F.Sublist (chainOf t) :=
        (List.filter_sublist _).trans (List.filter_sublist _)
      exact List.Pairwise.sublist hsubF h
    · intro a ha b hb hstrict
      rw [List.mem_reverse] at hb
      obtain ⟨hbchain, hbne⟩ := hstrict
      have hmemA := (inv.mem_iff a).mp ha
      have hb0 : st.g.styleCount b = 0 := ((hmemF b).mp hb).2
      have hbsty : cssOf b ≠ "" := ((hmemC b).mp ((hmemF b).mp hb).1).2
      have hca := inv.count_eq a
      rw [if_pos hmemA.1] at hca
      have hcb := inv.count_eq b
      rw [if_pos hbsty] at hcb
      have hmono := liveCount_mono hwf st.live hbchain
      have h2 := hmemA.2
      omega

/-- Destroying a live instance preserves the style invariant. -/
theorem styInv_destroy {chainOf : String → List String} {cssOf : String → String}
    (hwf : ChainsWF chainOf) {st : StySt}
    (inv : StyInv chainOf cssOf st) {t : String} (ht : t ∈ st.live) :
    StyInv chainOf cssOf (destroySty chainOf t st) := by
  classical
  have hchain_nd : (chainOf t).Nodup := (hwf t).2.1
  have hpos : ∀ s ∈ chainOf t, st.g.styleElem s = true → 0 < st.g.styleCount s := by
    intro s _ hs
    exact ((inv.mem_iff s).mp ((inv.elem_iff s).mp hs)).2
  have hspec := releaseLoop_spec (chainOf t) st.g hchain_nd inv.nodup hpos
  have hg : (destroySty chainOf t st).g = releaseLoop (chainOf t) st.g := rfl
  refine ⟨?_, ?_, ?_, ?_, ?_⟩
  · -- nodup
    rw [hg, hspec.1]
    exact inv.nodup.filter _
  · -- count_eq
    intro s
    rw [hg, hspec.2.1 s]
    show _ = if cssOf s ≠ "" then ((liveCount chainOf (st.live.erase t) s : Int)) else 0
    by_cases hsty : cssOf s ≠ ""
    · have herase := @liveCount_erase chainOf st.live t ht s
      have hcs := inv.count_eq s
      rw [if_pos hsty] at hcs
      by_cases hmem : s ∈ chainOf t
      · by_cases helem : st.g.styleElem s = true
        · rw [if_pos ⟨hmem, helem⟩, if_pos hsty]
          rw [if_pos hmem] at herase
          omega
        · exfalso
          have hlc := liveCount_pos_of_mem ht hmem
          have hmm : s ∈ st.g.head := (inv.mem_iff s).mpr ⟨hsty, by omega⟩
          exact helem ((inv.elem_iff s).mpr hmm)
      · rw [if_neg (by tauto), if_pos hsty]
        rw [if_neg hmem] at herase
        omega
    · have hcs := inv.count_eq s
      rw [if_neg hsty] at hcs
      have helemF : ¬ st.g.styleElem s = true := by
        intro h
        exact hsty ((inv.mem_iff s).mp ((inv.elem_iff s).mp h)).1
      rw [if_neg (by tauto), if_neg hsty]
      exact hcs
  · -- mem_iff
    intro s
    rw [hg, hspec.1, hspec.2.1 s, List.mem_filter]
    by_cases hmemH : s ∈ st.g.head
    · have hm := (inv.mem_iff s).mp hmemH
      have helem : st.g.styleElem s = true := (inv.elem_iff s).mpr hmemH
      by_cases hmem : s ∈ chainOf t
      · rw [if_pos ⟨hmem, helem⟩]
        constructor
        · rintro ⟨_, hP⟩
          simp [hmem, helem] at hP
          have h2 := hm.2
          exact ⟨hm.1, by omega⟩
        · rintro ⟨_, hpos2⟩
          refine ⟨hmemH, ?_⟩
          simp [hmem, helem]
          omega
      · rw [if_neg (by tauto)]
        constructor
        · rintro ⟨_, _⟩
          exact ⟨hm.1, hm.2⟩
        · rintro ⟨_, _⟩
          refine ⟨hmemH, by simp [hmem]⟩
    · have helemF : st.g.styleElem s = false := by
        have h1 : ¬ st.g.styleElem s = true := fun h => hmemH ((inv.elem_iff s).mp h)
        simpa using h1
      rw [if_neg (by simp [helemF])]
      constructor
      · rintro ⟨hmem2, _⟩
        exact absurd hmem2 hmemH
      · rintro ⟨hsty, hpos2⟩
        exact absurd ((inv.mem_iff s).mpr ⟨hsty, hpos2⟩) hmemH
  · -- elem_iff
    intro s
    rw [hg, hspec.2.2 s, hspec.1, List.mem_filter]
    by_cases helem : st.g.styleElem s = true
    · have hmemH : s ∈ st.g.head := (inv.elem_iff s).mp helem
      simp [helem, hmemH]
    · have hmemH : s ∉ st.g.head := fun h => helem ((inv.elem_iff s).mpr h)
      have hf : st.g.styleElem s = false := by
        simpa using helem
      simp [hf, hmemH]
  · -- ordered
    rw [hg, hspec.1]
    exact List.Pairwise.sublist (List.filter_sublist _) inv.ordered

/-- Every reachable state of the style layer satisfies the invariant. -/
theorem styInv_reachable {chainOf : String → List String} {cssOf : String → String}
    (hwf : ChainsWF chainOf) :
    ∀ st, ReachableSty chainOf cssOf st → StyInv chainOf cssOf st := by
  intro st h
  induction h with
  | init =>
    refine ⟨List.nodup_nil, ?_, ?_, ?_, List.Pairwise.nil⟩
    · intro s
      simp [StySt.init, GState.init, liveCount]
    · intro s
      simp [StySt.init, GState.init]
    · intro s
      simp [StySt.init, GState.init]
  | construct t st2 hr ih => exact styInv_construct hwf ih t
  | destroy t st2 hr htl ih => exact styInv_destroy hwf ih htl

theorem pairwise_of_indexOf_lt {α : Type} [DecidableEq α] {R : α → α → Prop}
    {l : List α} (hp : l.Pairwise R) {a b : α} (ha : a ∈ l) (hb : b ∈ l)
    (hab : l.indexOf a < l.indexOf b) : R a b := by
  have hia : l.indexOf a < l.length := List.indexOf_lt_length.mpr ha
  have hib : l.indexOf b < l.length := List.indexOf_lt_length.mpr hb
  have h := (List.pairwise_iff_getElem.mp hp) (l.indexOf a) (l.indexOf b) hia hib hab
  rwa [List.getElem_indexOf, List.getElem_indexOf] at h

theorem chainTwo_wf : ChainsWF chainTwo := by
  intro t
  by_cases ht : t = "d"
  · subst ht
    have hc : chainTwo "d" = ["d", "b"] := by decide
    refine ⟨by rw [hc]; rfl, by rw [hc]; decide, ?_⟩
    intro s hs
    rw [hc] at hs
    rcases List.mem_cons.mp hs with h | h
    · subst h
      rw [hc]
    · simp at h
      subst h
      have hb : chainTwo "b" = ["b"] := by decide
      rw [hb, hc]
      exact ⟨["d"], rfl⟩
  · have hct : chainTwo t = [t] := by simp [chainTwo, ht]
    refine ⟨by rw [hct]; rfl, by rw [hct]; simp, ?_⟩
    intro s hs
    rw [hct] at hs
    simp at hs
    subst hs
    rw [hct]

/-- Claim C2: along every sequence of component constructions and
destructions the style use-count of every registry entry stays
non-negative; for every entry with non-empty style text the entry's
style node is in the document exactly when its use-count is positive;
and the document head holds at most one style node per type.  This is
stated for every reachable state of the construct/destroy system, which
subsumes the claim's "N acquires followed by N releases on the same
entry" sequences. -/
theorem c2_style_use_count_invariant
    {chainOf : String → List String} {cssOf : String → String}
    (hwf : ChainsWF chainOf) {st : StySt}
    (hr : ReachableSty chainOf cssOf st) (s : String) :
    0 ≤ st.g.styleCount s ∧
    (cssOf s ≠ "" → (s ∈ st.g.head ↔ 0 < st.g.styleCount s)) ∧
    st.g.head.count s ≤ 1 := by
  have inv := styInv_reachable hwf st hr
  refine ⟨?_, ?_, ?_⟩
  · rw [inv.count_eq s]
    split
    · exact Int.natCast_nonneg _
    · exact le_refl 0
  · intro hsty
    constructor
    · intro h
      exact ((inv.mem_iff s).mp h).2
    · intro h
      exact (inv.mem_iff s).mpr ⟨hsty, h⟩
  · exact List.nodup_iff_count_le_one.mp inv.nodup s

/-- Witness for C2 at a concrete reachable state: one instance of type
`d` (extending `b`) has been constructed. -/
theorem c2_style_use_count_invariant_witness :
    0 ≤ (constructSty chainTwo cssAll "d" StySt.init).g.styleCount "b" ∧
    (cssAll "b" ≠ "" →
      ("b" ∈ (constructSty chainTwo cssAll "d" StySt.init).g.head ↔
        0 < (constructSty chainTwo cssAll "d" StySt.init).g.styleCount "b")) ∧
    (constructSty chainTwo cssAll "d" StySt.init).g.head.count "b" ≤ 1 :=
  c2_style_use_count_invariant chainTwo_wf
    (ReachableSty.construct "d" StySt.init ReachableSty.init) "b"

/-- Claim C6: in every reachable state, for any live (mounted) type and
any two of its ancestors such that one is a strict base of the other and
both declare non-empty style text, the more-base ancestor's style node
precedes the more-derived ancestor's style node in the document head. -/
theorem c6_ancestor_style_order
    {chainOf : String → List String} {cssOf : String → String}
    (hwf : ChainsWF chainOf) {st : StySt}
    (hr : ReachableSty chainOf cssOf st)
    {t s s' : String} (hlive : t ∈ st.live)
    (hs : s ∈ chainOf t) (hs' : s' ∈ chainOf t)
    (hbase : StrictBase chainOf s' s)
    (hsty : cssOf s ≠ "") (hsty' : cssOf s' ≠ "") :
    st.g.head.indexOf s' < st.g.head.indexOf s := by
  have inv := styInv_reachable hwf st hr
  have hcs := inv.count_eq s
  rw [if_pos hsty] at hcs
  have hlcs := liveCount_pos_of_mem hlive hs
  have hsm : s ∈ st.g.head := (inv.mem_iff s).mpr ⟨hsty, by omega⟩
  have hcs' := inv.count_eq s'
  rw [if_pos hsty'] at hcs'
  have hlcs' := liveCount_pos_of_mem hlive hs'
  have hs'm : s' ∈ st.g.head := (inv.mem_iff s').mpr ⟨hsty', by omega⟩
  by_contra hcon
  push_neg at hcon
  have hne : st.g.head.indexOf s ≠ st.g.head.indexOf s' := by
    intro heq
    have hia : st.g.head.indexOf s < st.g.head.length := List.indexOf_lt_length.mpr hsm
    have h1 : st.g.head.get ⟨st.g.head.indexOf s, hia⟩ = s := List.indexOf_get hia
    have hib : st.g.head.indexOf s' < st.g.head.length := List.indexOf_lt_length.mpr hs'm
    have h2 : st.g.head.get ⟨st.g.head.indexOf s', hib⟩ = s' := List.indexOf_get hib
    rw [← h1, ← h2]  at hbase
    exact hbase.2 (by congr 1; exact Fin.ext heq.symm)
  have hlt : st.g.head.indexOf s < st.g.head.indexOf s' := lt_of_le_of_ne hcon hne
  exact (pairwise_of_indexOf_lt inv.ordered hsm hs'm hlt) hbase

/-- Witness for C6: after constructing one instance of `d` (which
extends `b`, both styled), `b`'s style node precedes `d`'s in the
document head. -/
theorem c6_ancestor_style_order_witness :
    (constructSty chainTwo cssAll "d" StySt.init).g.head.indexOf "b" <
      (constructSty chainTwo cssAll "d" StySt.init).g.head.indexOf "d" :=
  @c6_ancestor_style_order chainTwo cssAll chainTwo_wf
    (constructSty chainTwo cssAll "d" StySt.init)
    (ReachableSty.construct "d" StySt.init ReachableSty.init)
    "d" "d" "b" (by decide) (by decide) (by decide)
    ⟨by decide, by decide⟩ (by decide) (by decide)

end AppJs


namespace AppJs

/-! # Claim C1: the nested component ref is never recorded -/

/-- Claim C1 (evidence of the code defect): constructing `Panel`, whose
template is the nested tag `<card ref="c1"></card>` with `Card`
registered, yields an instance whose `__component('c1')` is null even
though exactly one nested `Card` instance was mounted — because
`_setComponents` reads `params.ref` from the still-empty params
attribute map (src/html_component.js line 274) the ref is always the
empty string and `__insertComponent` never records it.  Moreover
`__element('c1')` returns the detached `<card>` tag that stayed in the
captured root array when the mounted roots went into the discarded
template fragment. -/
theorem c1_nested_component_ref_lost :
    (panelBuilt.1.toOption.map (fun i => i.componentLookup "c1")) = some none ∧
    (panelBuilt.1.toOption.map (fun i => i.components.toList.length)) = some 1 ∧
    (panelBuilt.1.toOption.map (fun i => (i.elementLookup "c1").isSome)) = some true :=
  ⟨rfl, rfl, rfl⟩

/-! # Claim C9: duplicate registration -/

/-- Claim C9: `register` for a type whose lowercased name is already a
registry key fails with `DuplicateRegistrationError` before any
mutation, so the registry — including the original entry for that
name — is exactly what it was. -/
theorem c9_duplicate_registration_rejected
    (cd : ClassDefs) (fuel : Nat) (clsName : String) (rs : Registry)
    (h : (Registry.find rs (strLower clsName)).isSome = true) :
    registerComp cd fuel clsName rs = (.error (.duplicateRegistration clsName), rs) := by
  unfold registerComp
  rw [if_pos h]

/-- Witness for C9: re-registering `Widget` under a different case is
rejected and the registry value is unchanged. -/
theorem c9_duplicate_registration_rejected_witness :
    registerComp cardClassDefs 9 "WIDGET" regAfterWidget =
      (.error (.duplicateRegistration "WIDGET"), regAfterWidget) :=
  c9_duplicate_registration_rejected cardClassDefs 9 "WIDGET" regAfterWidget (by decide)

/-! # Claim C5: ancestor chain order -/

/-- Claim C5 counterexample: after registering `Component`, `Widget`
and `Card` (in base-to-derived order) through `register`, the entry
looked up under `card` has ancestors `["card", "widget", "component"]`:
the chain begins with the type's own entry and ends with the common
base — the reverse of the claimed base-to-derived order. -/
theorem c5_counterexample_chain_starts_with_self :
    ((Registry.find cardRegistryBuilt "card").map (fun e => e.ancestors)) =
      some ["card", "widget", "component"] ∧
    ¬ (((Registry.find cardRegistryBuilt "card").map (fun e => e.ancestors.head?)) =
      some (some "component")) := by
  exact ⟨by decide, by decide⟩

theorem list_getLast?_cons_of_ne_nil {α : Type} (x : α) {l : List α} (h : l ≠ []) :
    (x :: l).getLast? = l.getLast? := by
  cases l with
  | nil => exact absurd rfl h
  | cons a l' => rw [List.getLast?_cons_cons]

theorem ancestorKeysWalk_last (parentOf : String → Option String) :
    ∀ (fuel : Nat) (a : String) (ks : List String),
    ancestorKeysWalk parentOf fuel a = some ks → a ≠ "Component" →
    ks.getLast? = some "component" ∧ ks ≠ [] := by
  intro fuel
  induction fuel with
  | zero => intro a ks h _; simp [ancestorKeysWalk] at h
  | succ n ih =>
    intro a ks h ha
    unfold ancestorKeysWalk at h
    rw [if_neg ha] at h
    cases hp : parentOf a with
    | none => rw [hp] at h; simp at h
    | some p =>
      rw [hp] at h
      simp only [Option.map_eq_some'] at h
      obtain ⟨l, hw, hks⟩ := h
      subst hks
      by_cases hpc : p = "Component"
      · subst hpc
        have hl : l = [] := by
          cases n with
          | zero => simp [ancestorKeysWalk] at hw
          | succ m =>
            unfold ancestorKeysWalk at hw
            rw [if_pos rfl] at hw
            simpa using hw.symm
        subst hl
        constructor
        · decide
        · simp
      · have hih := ih p l hw hpc
        rw [list_getLast?_cons_of_ne_nil _ hih.2]
        exact ⟨hih.1, by simp⟩

/-- Claim C5 amended: for a type (other than the base) whose name is
free and whose prototype walk reaches `Component`, registration
succeeds and records an ancestors array ordered most-derived first: it
begins with the type's own key and ends with the common base key. -/
theorem c5_amended_chain_most_derived_first
    (cd : ClassDefs) (fuel : Nat) (cls : String) (rs : Registry) (ks : List String)
    (hfree : Registry.find rs (strLower cls) = none)
    (hwalk : ancestorKeysWalk cd.parentOf fuel cls = some ks)
    (hcls : cls ≠ "Component") :
    ∃ entry, registerComp cd fuel cls rs = (.ok (), (strLower cls, entry) :: rs) ∧
      Registry.find ((strLower cls, entry) :: rs) (strLower cls) = some entry ∧
      entry.ancestors.head? = some (strLower cls) ∧
      entry.ancestors.getLast? = some "component" := by
  refine ⟨{ name := cls, ancestors := strLower cls :: ks
            html := cd.htmlOf cls, css := cd.cssOf cls }, ?_, ?_, ?_, ?_⟩
  · unfold registerComp
    rw [if_neg (by simp [hfree]), hwalk]
  · simp [Registry.find, List.lookup]
  · rfl
  · have hlast := ancestorKeysWalk_last cd.parentOf fuel cls ks hwalk hcls
    show (strLower cls :: ks).getLast? = some "component"
    rw [list_getLast?_cons_of_ne_nil _ hlast.2]
    exact hlast.1

def cardEntryBuilt : RegEntry :=
  { name := "Card", ancestors := ["card", "widget", "component"], html := .nil, css := "" }

/-- Witness for the amended C5 at the concrete `Card` registration. -/
theorem c5_amended_chain_most_derived_first_witness :
    registerComp cardClassDefs 9 "Card" regAfterWidget =
      (.ok (), ("card", cardEntryBuilt) :: regAfterWidget) ∧
    cardEntryBuilt.ancestors.head? = some "card" ∧
    cardEntryBuilt.ancestors.getLast? = some "component" := by
  obtain ⟨entry, h1, _, h3, h4⟩ :=
    c5_amended_chain_most_derived_first cardClassDefs 9 "Card" regAfterWidget
      ["widget", "component"] (by decide) (by decide) (by decide)
  have he : entry = cardEntryBuilt := by
    have h2 := congrArg Prod.snd h1
    rw [show (registerComp cardClassDefs 9 "Card" regAfterWidget).2 =
      ("card", cardEntryBuilt) :: regAfterWidget from by decide] at h2
    simp at h2
    exact h2.2.symm
  rw [he] at h1 h3 h4
  exact ⟨h1, h3, h4⟩

end AppJs

namespace AppJs

/-! # Claim C8: destruction order -/

/-- Claim C8 counterexample: removing a host (with one child component)
via `__deleteComponent` detaches the host's root nodes first — the
child's destroy side effects follow the detachment, they do not precede
it as claimed. -/
theorem c8_counterexample_detach_first :
    deleteComponentTrace hostWithChild =
      [DEvent.detachRoots "h", DEvent.styleRelease "c", DEvent.styleRelease "h"] ∧
    ¬ ((deleteComponentTrace hostWithChild).indexOf (DEvent.styleRelease "c") <
       (deleteComponentTrace hostWithChild).indexOf (DEvent.detachRoots "h")) := by
  exact ⟨rfl, by decide⟩

theorem indexOf_append_left {α : Type} [DecidableEq α] {a : α} :
    ∀ {l1 : List α} (l2 : List α), a ∈ l1 → (l1 ++ l2).indexOf a = l1.indexOf a := by
  intro l1
  induction l1 with
  | nil => intro l2 h; simp at h
  | cons b l ih =>
    intro l2 h
    by_cases hba : b = a
    · subst hba
      simp [List.indexOf_cons_self]
    · rw [List.cons_append, List.indexOf_cons_ne _ (by simpa using hba),
        List.indexOf_cons_ne _ (by simpa using hba)]
      rcases List.mem_cons.mp h with h1 | h1
      · exact absurd h1.symm hba
      · rw [ih l2 h1]

theorem indexOf_append_right {α : Type} [DecidableEq α] {a : α} :
    ∀ {l1 : List α} (l2 : List α), a ∉ l1 →
    (l1 ++ l2).indexOf a = l1.length + l2.indexOf a := by
  intro l1
  induction l1 with
  | nil => intro l2 _; simp
  | cons b l ih =>
    intro l2 h
    have hba : b ≠ a := fun he => h (by simp [he])
    rw [List.cons_append, List.indexOf_cons_ne _ (by simpa using hba)]
    rw [ih l2 (fun hm => h (by simp [hm]))]
    simp [List.length_cons]
    omega

theorem styleRelease_mem_destroyTrace :
    ∀ (x : SInst), DEvent.styleRelease x.id ∈ destroyTrace x := by
  intro x
  cases x with
  | node i cs =>
    show DEvent.styleRelease i ∈ destroyTraceL cs ++ [DEvent.styleRelease i]
    simp

theorem styleRelease_mem_destroyTraceL_aux :
    ∀ (n : Nat) (cs : SList), sizeOf cs ≤ n → ∀ d ∈ SList.toList cs,
    DEvent.styleRelease d.id ∈ destroyTraceL cs := by
  intro n
  induction n using Nat.strong_induction_on with
  | _ n ih =>
    intro cs hsz d hd
    cases cs with
    | nil => simp [SList.toList] at hd
    | cons c rest =>
      have hunf : destroyTraceL (SList.cons c rest) =
          destroyTrace c ++ destroyTraceL rest := rfl
      have hd' : d ∈ c :: SList.toList rest := hd
      rw [hunf]
      rcases List.mem_cons.mp hd' with h1 | h1
      · subst h1
        exact List.mem_append.mpr (Or.inl (styleRelease_mem_destroyTrace d))
      · have hszr : sizeOf rest < n := by
          have hs : sizeOf (SList.cons c rest) = 1 + sizeOf c + sizeOf rest := by simp
          omega
        exact List.mem_append.mpr
          (Or.inr (ih (sizeOf rest) hszr rest (le_refl _) d h1))

theorem styleRelease_mem_destroyTraceL (cs : SList) (d : SInst) (hd : d ∈ cs.toList) :
    DEvent.styleRelease d.id ∈ destroyTraceL cs :=
  styleRelease_mem_destroyTraceL_aux (sizeOf cs) cs (le_refl _) d hd

theorem destroyTrace_event_id_aux :
    ∀ (n : Nat),
    (∀ (x : SInst), sizeOf x ≤ n → ∀ e ∈ destroyTrace x,
      ∃ i, e = DEvent.styleRelease i ∧ i ∈ allIds x) ∧
    (∀ (cs : SList), sizeOf cs ≤ n → ∀ e ∈ destroyTraceL cs,
      ∃ i, e = DEvent.styleRelease i ∧ i ∈ allIdsL cs) := by
  intro n
  induction n using Nat.strong_induction_on with
  | _ n ih =>
    constructor
    · intro x hx e he
      cases x with
      | node i cs =>
        have hsz : sizeOf cs < n := by
          have : sizeOf (SInst.node i cs) = 1 + sizeOf i + sizeOf cs := by simp
          omega
        have hun : destroyTrace (SInst.node i cs) =
            destroyTraceL cs ++ [DEvent.styleRelease i] := rfl
        rw [hun] at he
        rcases List.mem_append.mp he with h1 | h1
        · obtain ⟨j, hj1, hj2⟩ := (ih (sizeOf cs) hsz).2 cs (le_refl _) e h1
          exact ⟨j, hj1, by simp [allIds, hj2]⟩
        · simp at h1
          exact ⟨i, h1, by simp [allIds]⟩
    · intro cs hcs e he
      cases cs with
      | nil => simp [destroyTraceL] at he
      | cons c rest =>
        have hszc : sizeOf c < n := by
          have : sizeOf (SList.cons c rest) = 1 + sizeOf c + sizeOf rest := by simp
          omega
        have hszr : sizeOf rest < n := by
          have : sizeOf (SList.cons c rest) = 1 + sizeOf c + sizeOf rest := by simp
          omega
        have hun : destroyTraceL (SList.cons c rest) =
            destroyTrace c ++ destroyTraceL rest := rfl
        rw [hun] at he
        rcases List.mem_append.mp he with h1 | h1
        · obtain ⟨j, hj1, hj2⟩ := (ih (sizeOf c) hszc).1 c (le_refl _) e h1
          exact ⟨j, hj1, by simp [allIdsL, hj2]⟩
        · obtain ⟨j, hj1, hj2⟩ := (ih (sizeOf rest) hszr).2 rest (le_refl _) e h1
          exact ⟨j, hj1, by simp [allIdsL, hj2]⟩

/-- Claim C8 amended: `__deleteComponent` first detaches the host's
root nodes (the detach event is the very first event of the trace), and
`__destroy` then destroys every owned child component before the host's
own style release: each child's style release strictly precedes the
host's. -/
theorem c8_amended_children_destroyed_before_host_release
    (c : SInst) (hids : (allIds c).Nodup) (d : SInst) (hd : d ∈ c.components.toList) :
    (deleteComponentTrace c).indexOf (DEvent.detachRoots c.id) = 0 ∧
    (deleteComponentTrace c).indexOf (DEvent.styleRelease d.id) <
      (deleteComponentTrace c).indexOf (DEvent.styleRelease c.id) := by
  cases c with
  | node i cs =>
    simp only [SInst.components] at hd
    have htrace : deleteComponentTrace (SInst.node i cs) =
        DEvent.detachRoots i :: (destroyTraceL cs ++ [DEvent.styleRelease i]) := rfl
    have hidn : i ∉ allIdsL cs := by
      have h1 : allIds (SInst.node i cs) = i :: allIdsL cs := rfl
      rw [h1] at hids
      exact (List.nodup_cons.mp hids).1
    have hmemd : DEvent.styleRelease d.id ∈ destroyTraceL cs :=
      styleRelease_mem_destroyTraceL cs d hd
    have hnotc : DEvent.styleRelease i ∉ destroyTraceL cs := by
      intro hmem
      obtain ⟨j, hj1, hj2⟩ :=
        (destroyTrace_event_id_aux (sizeOf cs)).2 cs (le_refl _) _ hmem
      have : j = i := by
        have := hj1
        simp at this
        exact this.symm
      rw [this] at hj2
      exact hidn hj2
    constructor
    · rw [htrace]
      show (DEvent.detachRoots i :: _).indexOf (DEvent.detachRoots (SInst.node i cs).id) = 0
      simp [SInst.id, List.indexOf_cons_self]
    · rw [htrace]
      show (DEvent.detachRoots i :: _).indexOf (DEvent.styleRelease d.id) <
        (DEvent.detachRoots i :: _).indexOf (DEvent.styleRelease (SInst.node i cs).id)
      rw [List.indexOf_cons_ne _ (by simp), List.indexOf_cons_ne _ (by simp)]
      have h1 : (destroyTraceL cs ++ [DEvent.styleRelease i]).indexOf
          (DEvent.styleRelease d.id) = (destroyTraceL cs).indexOf (DEvent.styleRelease d.id) :=
        indexOf_append_left _ hmemd
      have h2 : (destroyTraceL cs ++ [DEvent.styleRelease i]).indexOf
          (DEvent.styleRelease (SInst.node i cs).id) = (destroyTraceL cs).length + 0 := by
        show (destroyTraceL cs ++ [DEvent.styleRelease i]).indexOf (DEvent.styleRelease i) = _
        rw [indexOf_append_right _ hnotc]
        simp [List.indexOf_cons_self]
      rw [h1, h2]
      have h3 : (destroyTraceL cs).indexOf (DEvent.styleRelease d.id) <
          (destroyTraceL cs).length := List.indexOf_lt_length.mpr hmemd
      omega

/-- Witness for the amended C8 at the concrete host-with-one-child. -/
theorem c8_amended_children_destroyed_before_host_release_witness :
    (deleteComponentTrace hostWithChild).indexOf (DEvent.detachRoots "h") = 0 ∧
    (deleteComponentTrace hostWithChild).indexOf (DEvent.styleRelease "c") <
      (deleteComponentTrace hostWithChild).indexOf (DEvent.styleRelease "h") :=
  c8_amended_children_destroyed_before_host_release hostWithChild (by decide)
    (SInst.node "c" SList.nil) (by decide)

end AppJs

namespace AppJs

/-! # Claim C10: every `on`-prefixed attribute is a declarative handler -/

theorem scanAttrs_ok_of_resolved (methods : List String) :
    ∀ (attrs : List (String × String)),
    (∀ p ∈ attrs, strStartsWith p.1 "on" = true → p.2 ∈ methods) →
    scanAttrs methods attrs =
      .ok ((attrs.filter (fun p => strStartsWith p.1 "on")).map
        (fun p => (strLower (strDrop p.1 2), p.2))) := by
  intro attrs
  induction attrs with
  | nil => intro _; rfl
  | cons q rest ih =>
    intro h
    obtain ⟨n, v⟩ := q
    by_cases hon : strStartsWith n "on" = true
    · have hv : v ∈ methods := h (n, v) (by simp) hon
      show scanAttrs methods ((n, v) :: rest) = _
      unfold scanAttrs
      rw [if_pos hon, if_pos (by simpa using hv)]
      rw [ih (fun p hp => h p (by simp [hp]))]
      rw [List.filter_cons_of_pos (by simpa using hon)]
      simp
    · show scanAttrs methods ((n, v) :: rest) = _
      unfold scanAttrs
      rw [if_neg hon]
      rw [ih (fun p hp => h p (by simp [hp]))]
      rw [List.filter_cons_of_neg (by simpa using hon)]

theorem scanAttrs_err_at_first_bad (methods : List String) :
    ∀ (l1 : List (String × String)) (q : String × String) (l2 : List (String × String)),
    (∀ p ∈ l1, strStartsWith p.1 "on" = true → p.2 ∈ methods) →
    strStartsWith q.1 "on" = true → q.2 ∉ methods →
    scanAttrs methods (l1 ++ q :: l2) =
      .error (.missingHandler (strLower (strDrop q.1 2)) q.2) := by
  intro l1
  induction l1 with
  | nil =>
    intro q l2 _ hon hnv
    obtain ⟨n, v⟩ := q
    show scanAttrs methods ((n, v) :: l2) = _
    unfold scanAttrs
    rw [if_pos hon, if_neg (by simpa using hnv)]
  | cons r rest ih =>
    intro q l2 h1 hon hnv
    obtain ⟨n, v⟩ := r
    show scanAttrs methods ((n, v) :: (rest ++ q :: l2)) = _
    unfold scanAttrs
    by_cases hr : strStartsWith n "on" = true
    · have hv : v ∈ methods := h1 (n, v) (by simp) hr
      rw [if_pos hr, if_pos (by simpa using hv)]
      rw [ih q l2 (fun p hp => h1 p (by simp [hp]) ) hon hnv]
    · rw [if_neg hr]
      exact ih q l2 (fun p hp => h1 p (by simp [hp])) hon hnv

/-- Claim C10: for an element handed to the event binder, every
attribute whose name merely begins with `on` — whether or not the rest
names a real event (`once` and `on-foo` qualify) — is treated as a
declarative handler.  If every such value names a host method, a
listener is registered for each under the event name obtained by
dropping `on` and lowercasing, in attribute order, and exactly the
`on`-prefixed attributes are removed; if the first such attribute with
an unresolvable value is reached, the scan fails with
`MissingHandlerError` naming that event and value. -/
theorem c10_on_prefixed_attrs_are_handlers
    (methods : List String) (tag : String) (attrs : List (String × String))
    (cls : List String) (ls : List (String × String)) :
    ((∀ p ∈ attrs, strStartsWith p.1 "on" = true → p.2 ∈ methods) →
      eventScanN methods (.elem tag attrs cls ls .nil) =
        .ok (.elem tag (attrs.filter (fun p => !(strStartsWith p.1 "on"))) cls
          (ls ++ (attrs.filter (fun p => strStartsWith p.1 "on")).map
            (fun p => (strLower (strDrop p.1 2), p.2))) .nil)) ∧
    (∀ (l1 : List (String × String)) (q : String × String) (l2 : List (String × String)),
      attrs = l1 ++ q :: l2 →
      (∀ p ∈ l1, strStartsWith p.1 "on" = true → p.2 ∈ methods) →
      strStartsWith q.1 "on" = true → q.2 ∉ methods →
      eventScanN methods (.elem tag attrs cls ls .nil) =
        .error (.missingHandler (strLower (strDrop q.1 2)) q.2)) := by
  constructor
  · intro h
    unfold eventScanN
    rw [scanAttrs_ok_of_resolved methods attrs h]
    rfl
  · intro l1 q l2 heq h1 hon hnv
    unfold eventScanN
    rw [heq, scanAttrs_err_at_first_bad methods l1 q l2 h1 hon hnv]

/-- Witness for C10: attributes `once` and `on-foo` are bound as
listeners for events `ce` and `-foo` and removed; an unresolvable
`onclick` aborts with `MissingHandlerError`. -/
theorem c10_on_prefixed_attrs_are_handlers_witness :
    eventScanN ["f", "g"] (.elem "div" [("once", "f"), ("on-foo", "g"), ("id", "z")] [] [] .nil) =
      .ok (.elem "div" [("id", "z")] [] [("ce", "f"), ("-foo", "g")] .nil) ∧
    eventScanN ["f"] (.elem "div" [("once", "f"), ("onclick", "nope")] [] [] .nil) =
      .error (.missingHandler "click" "nope") := by
  constructor
  · have h := (c10_on_prefixed_attrs_are_handlers ["f", "g"] "div"
      [("once", "f"), ("on-foo", "g"), ("id", "z")] [] []).1 (by decide)
    exact h.trans rfl
  · exact (c10_on_prefixed_attrs_are_handlers ["f"] "div"
      [("once", "f"), ("onclick", "nope")] [] []).2
      [("once", "f")] ("onclick", "nope") [] (by decide) (by decide) (by decide) (by decide)

end AppJs

namespace AppJs

/-! # Induction principles for the mutual node and instance types -/

theorem hnode_mutual_induction (mn : HNode → Prop) (mf : HForest → Prop)
    (ht : ∀ s, mn (.text s))
    (he : ∀ tag attrs cls ls ch, mf ch → mn (.elem tag attrs cls ls ch))
    (hn : mf .nil)
    (hc : ∀ hd tl, mn hd → mf tl → mf (.cons hd tl)) :
    (∀ n, mn n) ∧ (∀ f, mf f) := by
  have key : ∀ k : Nat, (∀ n, sizeOf n ≤ k → mn n) ∧ (∀ f, sizeOf f ≤ k → mf f) := by
    intro k
    induction k using Nat.strong_induction_on with
    | _ k ih =>
      constructor
      · intro n hsz
        cases n with
        | text s => exact ht s
        | elem tag attrs cls ls ch =>
          have h1 : sizeOf (HNode.elem tag attrs cls ls ch) =
              1 + sizeOf tag + sizeOf attrs + sizeOf cls + sizeOf ls + sizeOf ch := by simp
          have h2 : sizeOf ch < k := by omega
          exact he tag attrs cls ls ch ((ih (sizeOf ch) h2).2 ch (le_refl _))
      · intro f hsz
        cases f with
        | nil => exact hn
        | cons hd tl =>
          have h1 : sizeOf (HForest.cons hd tl) = 1 + sizeOf hd + sizeOf tl := by simp
          have h2 : sizeOf hd < k := by omega
          have h3 : sizeOf tl < k := by omega
          exact hc hd tl ((ih (sizeOf hd) h2).1 hd (le_refl _))
            ((ih (sizeOf tl) h3).2 tl (le_refl _))
  exact ⟨fun n => (key (sizeOf n)).1 n (le_refl _), fun f => (key (sizeOf f)).2 f (le_refl _)⟩

theorem hforest_spine_induction (motive : HForest → Prop)
    (h1 : motive .nil) (h2 : ∀ hd tl, motive tl → motive (.cons hd tl)) :
    ∀ f, motive f :=
  (hnode_mutual_induction (fun _ => True) motive
    (fun _ => trivial) (fun _ _ _ _ _ _ => trivial) h1 (fun hd tl _ h => h2 hd tl h)).2

theorem instance_mutual_induction (mi : Instance → Prop) (ml : InstList → Prop)
    (hmk : ∀ k r roots comps erefs crefs, ml comps → mi (.mk k r roots comps erefs crefs))
    (hn : ml .nil)
    (hc : ∀ c rest, mi c → ml rest → ml (.cons c rest)) :
    (∀ i, mi i) ∧ (∀ l, ml l) := by
  have key : ∀ s : Nat, (∀ i, sizeOf i ≤ s → mi i) ∧ (∀ l, sizeOf l ≤ s → ml l) := by
    intro s
    induction s using Nat.strong_induction_on with
    | _ s ih =>
      constructor
      · intro i hsz
        cases i with
        | mk k r roots comps erefs crefs =>
          have h1 : sizeOf (Instance.mk k r roots comps erefs crefs) =
              1 + sizeOf k + sizeOf r + sizeOf roots + sizeOf comps +
                sizeOf erefs + sizeOf crefs := by simp
          have h2 : sizeOf comps < s := by omega
          exact hmk k r roots comps erefs crefs ((ih (sizeOf comps) h2).2 comps (le_refl _))
      · intro l hsz
        cases l with
        | nil => exact hn
        | cons c rest =>
          have h1 : sizeOf (InstList.cons c rest) = 1 + sizeOf c + sizeOf rest := by simp
          have h2 : sizeOf c < s := by omega
          have h3 : sizeOf rest < s := by omega
          exact hc c rest ((ih (sizeOf c) h2).1 c (le_refl _))
            ((ih (sizeOf rest) h3).2 rest (le_refl _))
  exact ⟨fun i => (key (sizeOf i)).1 i (le_refl _), fun l => (key (sizeOf l)).2 l (le_refl _)⟩

/-! # Association-list keys -/

theorem lookup_eq_none_iff {β : Type} :
    ∀ (l : List (String × β)) (v : String),
    List.lookup v l = none ↔ v ∉ l.map Prod.fst := by
  intro l
  induction l with
  | nil => intro v; simp
  | cons q rest ih =>
    intro v
    obtain ⟨k, x⟩ := q
    by_cases hv : v = k
    · subst hv
      simp [List.lookup]
    · have hbe : (v == k) = false := by simpa using hv
      rw [List.lookup, hbe]
      show List.lookup v rest = none ↔ _
      rw [ih v]
      simp [hv]

theorem lookup_some_mem_keys {β : Type} :
    ∀ (l : List (String × β)) (v : String) (x : β),
    List.lookup v l = some x → v ∈ l.map Prod.fst := by
  intro l v x h
  by_contra hmem
  rw [← lookup_eq_none_iff] at hmem
  rw [hmem] at h
  exact Option.noConfusion h

end AppJs
namespace AppJs

/-! # Reference-scan structure lemmas -/

theorem scanRefNames_sub_allRefNames :
    (∀ n, ∀ x ∈ scanRefNamesN n, x ∈ allRefNamesN n) ∧
    (∀ f, ∀ x ∈ scanRefNamesF f, x ∈ allRefNamesF f) := by
  apply hnode_mutual_induction
  · intro s x hx
    simp [scanRefNamesN] at hx
  · intro tag attrs cls ls ch ih x hx
    rw [scanRefNamesN] at hx
    rw [allRefNamesN]
    by_cases hc : cls.contains "Component" = true
    · rw [if_pos hc] at hx
      simp at hx
    · rw [if_neg hc] at hx
      rcases List.mem_append.mp hx with h | h
      · exact List.mem_append.mpr (Or.inl h)
      · exact List.mem_append.mpr (Or.inr (ih x h))
  · intro x hx
    simp [scanRefNamesF] at hx
  · intro hd tl ihn ihf x hx
    rw [scanRefNamesF] at hx
    rw [allRefNamesF]
    rcases List.mem_append.mp hx with h | h
    · exact List.mem_append.mpr (Or.inl (ihn x h))
    · exact List.mem_append.mpr (Or.inr (ihf x h))

theorem scanRefNames_nil_of_marked :
    ∀ f, RootsMarked f → scanRefNamesF f = [] := by
  apply hforest_spine_induction
  · intro _
    rfl
  · intro hd tl ih hm
    obtain ⟨h1, h2⟩ := hm
    rw [scanRefNamesF, ih h2]
    cases hd with
    | text s => rfl
    | elem tag attrs cls ls ch =>
      have hc : cls.contains "Component" = true :=
        List.elem_eq_true_of_mem h1
      rw [scanRefNamesN, if_pos hc]
      rfl

theorem scanRefNamesF_append :
    ∀ (f1 : HForest), ∀ (f2 : HForest),
    scanRefNamesF (f1.append f2) = scanRefNamesF f1 ++ scanRefNamesF f2 := by
  apply hforest_spine_induction
  · intro f2
    rfl
  · intro hd tl ih f2
    show scanRefNamesF (.cons hd (tl.append f2)) = _
    rw [scanRefNamesF, ih f2, scanRefNamesF, List.append_assoc]

/-! # `_setComponents` is the identity on templates without registered
tags (no nested component is mounted, no state is touched) -/

theorem setComps_noreg (reg : Registry) (methods : List String)
    (cn : String → Params → GState → (Except CErr Instance) × GState) :
    (∀ n, ∀ acc g, NoRegTagsN reg n = true →
      setCompsN reg methods cn n acc g = (.ok (.cons n .nil, acc), g)) ∧
    (∀ f, ∀ acc g, NoRegTagsF reg f = true →
      setCompsF reg methods cn f acc g = (.ok (f, acc), g)) := by
  apply hnode_mutual_induction
  · intro s acc g _
    rfl
  · intro tag attrs cls ls ch ih acc g hno
    have h1 : (Registry.find reg (strLower tag)).isNone = true ∧ NoRegTagsF reg ch = true := by
      simpa [NoRegTagsN] using hno
    have hfind : Registry.find reg (strLower tag) = none := by
      simpa using h1.1
    show setCompsN reg methods cn (.elem tag attrs cls ls ch) acc g = _
    unfold setCompsN
    rw [hfind, ih acc g h1.2]
  · intro acc g _
    rfl
  · intro hd tl ihn ihf acc g hno
    have h1 : NoRegTagsN reg hd = true ∧ NoRegTagsF reg tl = true := by
      simpa [NoRegTagsF] using hno
    show setCompsF reg methods cn (.cons hd tl) acc g = _
    unfold setCompsF
    simp only [ihn acc g h1.1, ihf acc g h1.2, HForest.append]


/-! # Handler resolution lemmas -/

theorem allHandlers_resolved (methods : List String) (attrs : List (String × String))
    (h : attrs.all (fun p => !(strStartsWith p.1 "on") || methods.contains p.2) = true) :
    ∀ p ∈ attrs, strStartsWith p.1 "on" = true → p.2 ∈ methods := by
  intro p hp hon
  have h2 := List.all_eq_true.mp h p hp
  rw [hon] at h2
  simpa using h2

theorem scanAttrs_err_of_bad (methods : List String) :
    ∀ (attrs : List (String × String)),
    attrs.all (fun p => !(strStartsWith p.1 "on") || methods.contains p.2) = false →
    ∃ ev v, scanAttrs methods attrs = .error (.missingHandler ev v) := by
  intro attrs
  induction attrs with
  | nil => intro h; simp at h
  | cons q rest ih =>
    intro h
    obtain ⟨n, v⟩ := q
    rw [List.all_cons] at h
    by_cases hon : strStartsWith n "on" = true
    · by_cases hv : methods.contains v = true
      · have hrest : rest.all
            (fun p => !(strStartsWith p.1 "on") || methods.contains p.2) = false := by
          rw [Bool.and_eq_false_iff] at h
          rcases h with h | h
          · exfalso
            rw [hon, hv] at h
            simp at h
          · exact h
        obtain ⟨ev, v2, herr⟩ := ih hrest
        refine ⟨ev, v2, ?_⟩
        show scanAttrs methods ((n, v) :: rest) = _
        unfold scanAttrs
        rw [if_pos hon, if_pos (by simpa using hv), herr]
      · refine ⟨strLower (strDrop n 2), v, ?_⟩
        show scanAttrs methods ((n, v) :: rest) = _
        unfold scanAttrs
        rw [if_pos hon, if_neg (by simpa using hv)]
    · have hrest : rest.all
          (fun p => !(strStartsWith p.1 "on") || methods.contains p.2) = false := by
        rw [Bool.and_eq_false_iff] at h
        rcases h with h | h
        · exfalso
          have hon2 : strStartsWith n "on" = false := by simpa using hon
          rw [hon2] at h
          simp at h
        · exact h
      obtain ⟨ev, v2, herr⟩ := ih hrest
      refine ⟨ev, v2, ?_⟩
      show scanAttrs methods ((n, v) :: rest) = _
      unfold scanAttrs
      rw [if_neg hon, herr]

theorem eventScan_ok_of_handlers (methods : List String) :
    (∀ n, AllHandlersN methods n = true → ∃ n1, eventScanN methods n = .ok n1) ∧
    (∀ f, AllHandlersF methods f = true → ∃ f1, eventScanF methods f = .ok f1) := by
  apply hnode_mutual_induction
  · intro s _
    exact ⟨.text s, rfl⟩
  · intro tag attrs cls ls ch ih hh
    have h1 : attrs.all (fun p => !(strStartsWith p.1 "on") || methods.contains p.2) = true ∧
        AllHandlersF methods ch = true := by
      simpa [AllHandlersN] using hh
    obtain ⟨ch1, hch⟩ := ih h1.2
    refine ⟨.elem tag (attrs.filter (fun p => !(strStartsWith p.1 "on"))) cls
      (ls ++ ((attrs.filter (fun p => strStartsWith p.1 "on")).map
        (fun p => (strLower (strDrop p.1 2), p.2)))) ch1, ?_⟩
    unfold eventScanN
    rw [scanAttrs_ok_of_resolved methods attrs (allHandlers_resolved methods attrs h1.1), hch]
  · intro _
    exact ⟨.nil, rfl⟩
  · intro hd tl ihn ihf hh
    have h1 : AllHandlersN methods hd = true ∧ AllHandlersF methods tl = true := by
      simpa [AllHandlersF] using hh
    obtain ⟨hd1, hhd⟩ := ihn h1.1
    obtain ⟨tl1, htl⟩ := ihf h1.2
    refine ⟨.cons hd1 tl1, ?_⟩
    unfold eventScanF
    rw [hhd, htl]

theorem eventScan_err_of_bad (methods : List String) :
    (∀ n, AllHandlersN methods n = false →
      ∃ ev v, eventScanN methods n = .error (.missingHandler ev v)) ∧
    (∀ f, AllHandlersF methods f = false →
      ∃ ev v, eventScanF methods f = .error (.missingHandler ev v)) := by
  apply hnode_mutual_induction
  · intro s hh
    simp [AllHandlersN] at hh
  · intro tag attrs cls ls ch ih hh
    rw [AllHandlersN, Bool.and_eq_false_iff] at hh
    by_cases ha : attrs.all (fun p => !(strStartsWith p.1 "on") || methods.contains p.2) = true
    · have hch : AllHandlersF methods ch = false := by
        rcases hh with h | h
        · exact absurd ha (by rw [h]; simp)
        · exact h
      obtain ⟨ev, v, herr⟩ := ih hch
      refine ⟨ev, v, ?_⟩
      unfold eventScanN
      rw [scanAttrs_ok_of_resolved methods attrs (allHandlers_resolved methods attrs ha), herr]
    · obtain ⟨ev, v, herr⟩ := scanAttrs_err_of_bad methods attrs (by simpa using ha)
      refine ⟨ev, v, ?_⟩
      unfold eventScanN
      rw [herr]
  · intro hh
    simp [AllHandlersF] at hh
  · intro hd tl ihn ihf hh
    rw [AllHandlersF, Bool.and_eq_false_iff] at hh
    by_cases hn : AllHandlersN methods hd = true
    · have htl : AllHandlersF methods tl = false := by
        rcases hh with h | h
        · exact absurd hn (by rw [h]; simp)
        · exact h
      obtain ⟨hd1, hhd⟩ := (eventScan_ok_of_handlers methods).1 hd hn
      obtain ⟨ev, v, herr⟩ := ihf htl
      refine ⟨ev, v, ?_⟩
      unfold eventScanF
      rw [hhd, herr]
    · obtain ⟨ev, v, herr⟩ := ihn (by simpa using hn)
      refine ⟨ev, v, ?_⟩
      unfold eventScanF
      rw [herr]


/-! # `_setRefs` walk characterization -/

theorem setRefs_ok_keys :
    (∀ n, ∀ (acc acc2 : List (String × HNode)), setRefsN acc n = .ok acc2 →
      acc2.map Prod.fst = acc.map Prod.fst ++ scanRefNamesN n) ∧
    (∀ f, ∀ (acc acc2 : List (String × HNode)), setRefsF acc f = .ok acc2 →
      acc2.map Prod.fst = acc.map Prod.fst ++ scanRefNamesF f) := by
  apply hnode_mutual_induction
  · intro s acc acc2 h
    have h2 : acc = acc2 := by simpa [setRefsN] using h
    rw [← h2, scanRefNamesN]
    simp
  · intro tag attrs cls ls ch ih acc acc2 h
    unfold setRefsN at h
    rw [scanRefNamesN]
    by_cases hc : cls.contains "Component" = true
    · rw [if_pos hc] at h ⊢
      have h2 : acc = acc2 := by simpa using h
      rw [← h2]
      simp
    · rw [if_neg hc] at h ⊢
      cases href : lookupAttr attrs "ref" with
      | none =>
        rw [href] at h
        simp only [] at h ⊢
        rw [ih acc acc2 h]
        simp
      | some v =>
        rw [href] at h
        simp only [] at h ⊢
        by_cases hlk : (List.lookup v acc).isSome = true
        · rw [if_pos hlk] at h
          exact absurd h (by simp)
        · rw [if_neg hlk] at h
          rw [ih (acc ++ [(v, .elem tag attrs cls ls ch)]) acc2 h]
          simp
  · intro acc acc2 h
    have h2 : acc = acc2 := by simpa [setRefsF] using h
    rw [← h2, scanRefNamesF]
    simp
  · intro hd tl ihn ihf acc acc2 h
    unfold setRefsF at h
    rw [scanRefNamesF]
    cases hh : setRefsN acc hd with
    | error e =>
      rw [hh] at h
      exact absurd h (by simp)
    | ok acc1 =>
      rw [hh] at h
      rw [ihf acc1 acc2 h, ihn acc acc1 hh, List.append_assoc]


theorem setRefs_total :
    (∀ n, ∀ acc : List (String × HNode), (acc.map Prod.fst).Nodup →
      ((acc.map Prod.fst ++ scanRefNamesN n).Nodup →
        ∃ acc2, setRefsN acc n = .ok acc2) ∧
      (¬ (acc.map Prod.fst ++ scanRefNamesN n).Nodup →
        ∃ x, setRefsN acc n = .error (.duplicateReference x))) ∧
    (∀ f, ∀ acc : List (String × HNode), (acc.map Prod.fst).Nodup →
      ((acc.map Prod.fst ++ scanRefNamesF f).Nodup →
        ∃ acc2, setRefsF acc f = .ok acc2) ∧
      (¬ (acc.map Prod.fst ++ scanRefNamesF f).Nodup →
        ∃ x, setRefsF acc f = .error (.duplicateReference x))) := by
  apply hnode_mutual_induction
  · intro s acc hnd
    constructor
    · intro _
      exact ⟨acc, rfl⟩
    · intro hbad
      exfalso
      rw [scanRefNamesN, List.append_nil] at hbad
      exact hbad hnd
  · intro tag attrs cls ls ch ih acc hnd
    by_cases hc : cls.contains "Component" = true
    · constructor
      · intro _
        refine ⟨acc, ?_⟩
        unfold setRefsN
        rw [if_pos hc]
      · intro hbad
        exfalso
        rw [scanRefNamesN, if_pos hc, List.append_nil] at hbad
        exact hbad hnd
    · cases href : lookupAttr attrs "ref" with
      | none =>
        have hsc : scanRefNamesN (.elem tag attrs cls ls ch) = scanRefNamesF ch := by
          rw [scanRefNamesN, if_neg hc, href]
          simp
        have hstep : setRefsN acc (.elem tag attrs cls ls ch) = setRefsF acc ch := by
          unfold setRefsN
          rw [if_neg hc, href]
        have ihch := ih acc hnd
        constructor
        · intro hok
          rw [hsc] at hok
          obtain ⟨acc2, h2⟩ := ihch.1 hok
          exact ⟨acc2, by rw [hstep]; exact h2⟩
        · intro hbad
          rw [hsc] at hbad
          obtain ⟨x, h2⟩ := ihch.2 hbad
          exact ⟨x, by rw [hstep]; exact h2⟩
      | some v =>
        have hsc : scanRefNamesN (.elem tag attrs cls ls ch) = v :: scanRefNamesF ch := by
          rw [scanRefNamesN, if_neg hc, href]
          simp
        by_cases hv : v ∈ acc.map Prod.fst
        · have hlk : (List.lookup v acc).isSome = true := by
            cases hl : List.lookup v acc with
            | some w => rfl
            | none => exact absurd hv ((lookup_eq_none_iff acc v).mp hl)
          have herr : setRefsN acc (.elem tag attrs cls ls ch) =
              .error (.duplicateReference v) := by
            unfold setRefsN
            rw [if_neg hc, href]
            simp only []
            rw [if_pos hlk]
          constructor
          · intro hok
            exfalso
            rw [hsc] at hok
            rcases List.nodup_append.mp hok with ⟨h1, h2, hdisj⟩
            exact hdisj hv (by simp)
          · intro _
            exact ⟨v, herr⟩
        · have hlk : List.lookup v acc = none := (lookup_eq_none_iff acc v).mpr hv
          have hstep : setRefsN acc (.elem tag attrs cls ls ch) =
              setRefsF (acc ++ [(v, .elem tag attrs cls ls ch)]) ch := by
            unfold setRefsN
            rw [if_neg hc, href]
            simp only []
            rw [hlk]
            simp
          have hkeys : (acc ++ [(v, HNode.elem tag attrs cls ls ch)]).map Prod.fst =
              acc.map Prod.fst ++ [v] := by simp
          have hnd2 : ((acc ++ [(v, HNode.elem tag attrs cls ls ch)]).map Prod.fst).Nodup := by
            rw [hkeys, List.nodup_append]
            refine ⟨hnd, List.nodup_singleton v, ?_⟩
            intro a ha hb
            rw [List.mem_singleton] at hb
            subst hb
            exact hv ha
          have ihch := ih (acc ++ [(v, .elem tag attrs cls ls ch)]) hnd2
          constructor
          · intro hok
            rw [hsc] at hok
            obtain ⟨acc2, h2⟩ := ihch.1 (by
              rw [hkeys, List.append_assoc]
              simpa using hok)
            exact ⟨acc2, by rw [hstep]; exact h2⟩
          · intro hbad
            rw [hsc] at hbad
            obtain ⟨x, h2⟩ := ihch.2 (by
              rw [hkeys, List.append_assoc]
              intro hcontra
              exact hbad (by simpa using hcontra))
            exact ⟨x, by rw [hstep]; exact h2⟩
  · intro acc hnd
    constructor
    · intro _
      exact ⟨acc, rfl⟩
    · intro hbad
      exfalso
      rw [scanRefNamesF, List.append_nil] at hbad
      exact hbad hnd
  · intro hd tl ihn ihf acc hnd
    have hsc : scanRefNamesF (.cons hd tl) = scanRefNamesN hd ++ scanRefNamesF tl := rfl
    constructor
    · intro hok
      rw [hsc, ← List.append_assoc] at hok
      have hleft : (acc.map Prod.fst ++ scanRefNamesN hd).Nodup := hok.of_append_left
      obtain ⟨acc1, h1⟩ := (ihn acc hnd).1 hleft
      have hkeys1 : acc1.map Prod.fst = acc.map Prod.fst ++ scanRefNamesN hd :=
        setRefs_ok_keys.1 hd acc acc1 h1
      have hnd1 : (acc1.map Prod.fst).Nodup := by rw [hkeys1]; exact hleft
      obtain ⟨acc2, h2⟩ := (ihf acc1 hnd1).1 (by rw [hkeys1]; exact hok)
      refine ⟨acc2, ?_⟩
      unfold setRefsF
      rw [h1]
      exact h2
    · intro hbad
      rw [hsc] at hbad
      by_cases hleft : (acc.map Prod.fst ++ scanRefNamesN hd).Nodup
      · obtain ⟨acc1, h1⟩ := (ihn acc hnd).1 hleft
        have hkeys1 : acc1.map Prod.fst = acc.map Prod.fst ++ scanRefNamesN hd :=
          setRefs_ok_keys.1 hd acc acc1 h1
        have hnd1 : (acc1.map Prod.fst).Nodup := by rw [hkeys1]; exact hleft
        have hbad2 : ¬ (acc1.map Prod.fst ++ scanRefNamesF tl).Nodup := by
          rw [hkeys1, List.append_assoc]
          exact hbad
        obtain ⟨x, h2⟩ := (ihf acc1 hnd1).2 hbad2
        refine ⟨x, ?_⟩
        unfold setRefsF
        rw [h1]
        exact h2
      · obtain ⟨x, h1⟩ := (ihn acc hnd).2 hleft
        refine ⟨x, ?_⟩
        unfold setRefsF
        rw [h1]


/-! # Root processing on templates without registered tags -/

theorem processRoots_noreg (reg : Registry) (methods : List String)
    (ancNames : List String)
    (cn : String → Params → GState → (Except CErr Instance) × GState) :
    ∀ f : HForest, ∀ (erefs : List (String × HNode)) (acc : HostAcc) (g : GState),
    NoRegTagsF reg f = true →
    AllHandlersF methods f = true →
    (erefs.map Prod.fst).Nodup →
    (((erefs.map Prod.fst ++ scanRefNamesF f).Nodup →
      ∃ roots1 erefs1, processRootsF reg methods ancNames cn f erefs acc g =
        (.ok (roots1, erefs1, acc), g)) ∧
     (¬ (erefs.map Prod.fst ++ scanRefNamesF f).Nodup →
      ∃ x, processRootsF reg methods ancNames cn f erefs acc g =
        (.error (.duplicateReference x), g))) := by
  apply hforest_spine_induction
  · intro erefs acc g _ _ hnd
    constructor
    · intro _
      exact ⟨.nil, erefs, rfl⟩
    · intro hbad
      exfalso
      rw [scanRefNamesF, List.append_nil] at hbad
      exact hbad hnd
  · intro hd tl ih erefs acc g hno hha hnd
    rw [show NoRegTagsF reg (.cons hd tl) =
      (NoRegTagsN reg hd && NoRegTagsF reg tl) from rfl, Bool.and_eq_true] at hno
    rw [show AllHandlersF methods (.cons hd tl) =
      (AllHandlersN methods hd && AllHandlersF methods tl) from rfl, Bool.and_eq_true] at hha
    cases hd with
    | text s =>
      have hsc : scanRefNamesF (HForest.cons (.text s) tl) = scanRefNamesF tl := by
        rw [scanRefNamesF, scanRefNamesN]
        simp
      have ihtl := ih erefs acc g hno.2 hha.2 hnd
      constructor
      · intro hok
        rw [hsc] at hok
        obtain ⟨tl1, erefs1, h2⟩ := ihtl.1 hok
        refine ⟨.cons (.text s) tl1, erefs1, ?_⟩
        unfold processRootsF
        simp only [h2]
      · intro hbad
        rw [hsc] at hbad
        obtain ⟨x, h2⟩ := ihtl.2 hbad
        refine ⟨x, ?_⟩
        unfold processRootsF
        simp only [h2]
    | elem tag attrs cls ls ch =>
      have hno1 := hno.1
      rw [NoRegTagsN, Bool.and_eq_true] at hno1
      have hfind : Registry.find reg (strLower tag) = none := by
        simpa using hno1.1
      have hcomps : setCompsF reg methods cn ch acc g = (.ok (ch, acc), g) :=
        (setComps_noreg reg methods cn).2 ch acc g hno1.2
      have hsc : scanRefNamesF (HForest.cons (.elem tag attrs cls ls ch) tl) =
          scanRefNamesN (.elem tag attrs cls ls ch) ++ scanRefNamesF tl := rfl
      constructor
      · intro hok
        rw [hsc, ← List.append_assoc] at hok
        have hleft := hok.of_append_left
        obtain ⟨erefs1, h1⟩ :=
          (setRefs_total.1 (.elem tag attrs cls ls ch) erefs hnd).1 hleft
        have hkeys1 := setRefs_ok_keys.1 (.elem tag attrs cls ls ch) erefs erefs1 h1
        have hnd1 : (erefs1.map Prod.fst).Nodup := by
          rw [hkeys1]
          exact hleft
        obtain ⟨node2, hev⟩ := (eventScan_ok_of_handlers methods).1 _ hha.1
        have ihtl := ih erefs1 acc g hno.2 hha.2 hnd1
        obtain ⟨tl1, erefs2, h2⟩ := ihtl.1 (by rw [hkeys1]; exact hok)
        refine ⟨.cons (addClassesNode ancNames node2) tl1, erefs2, ?_⟩
        unfold processRootsF
        simp only [hfind, hcomps, h1, hev, h2]
      · intro hbad
        rw [hsc] at hbad
        by_cases hleft :
            (erefs.map Prod.fst ++ scanRefNamesN (.elem tag attrs cls ls ch)).Nodup
        · obtain ⟨erefs1, h1⟩ :=
            (setRefs_total.1 (.elem tag attrs cls ls ch) erefs hnd).1 hleft
          have hkeys1 := setRefs_ok_keys.1 (.elem tag attrs cls ls ch) erefs erefs1 h1
          have hnd1 : (erefs1.map Prod.fst).Nodup := by
            rw [hkeys1]
            exact hleft
          obtain ⟨node2, hev⟩ := (eventScan_ok_of_handlers methods).1 _ hha.1
          have hbad2 : ¬ (erefs1.map Prod.fst ++ scanRefNamesF tl).Nodup := by
            rw [hkeys1, List.append_assoc]
            exact hbad
          obtain ⟨x, h2⟩ := (ih erefs1 acc g hno.2 hha.2 hnd1).2 hbad2
          refine ⟨x, ?_⟩
          unfold processRootsF
          simp only [hfind, hcomps, h1, hev, h2]
        · obtain ⟨x, h1⟩ :=
            (setRefs_total.1 (.elem tag attrs cls ls ch) erefs hnd).2 hleft
          refine ⟨x, ?_⟩
          unfold processRootsF
          simp only [hfind, hcomps, h1]


theorem processRoots_bad (reg : Registry) (methods : List String)
    (ancNames : List String)
    (cn : String → Params → GState → (Except CErr Instance) × GState) :
    ∀ f : HForest, ∀ (erefs : List (String × HNode)) (acc : HostAcc) (g : GState),
    NoRegTagsF reg f = true →
    (erefs.map Prod.fst ++ scanRefNamesF f).Nodup →
    (erefs.map Prod.fst).Nodup →
    AllHandlersF methods f = false →
    ∃ ev v, processRootsF reg methods ancNames cn f erefs acc g =
      (.error (.missingHandler ev v), g) := by
  apply hforest_spine_induction
  · intro erefs acc g _ _ _ hbad
    simp [AllHandlersF] at hbad
  · intro hd tl ih erefs acc g hno hok hnd hbad
    rw [show NoRegTagsF reg (.cons hd tl) =
      (NoRegTagsN reg hd && NoRegTagsF reg tl) from rfl, Bool.and_eq_true] at hno
    rw [show AllHandlersF methods (.cons hd tl) =
      (AllHandlersN methods hd && AllHandlersF methods tl) from rfl,
      Bool.and_eq_false_iff] at hbad
    cases hd with
    | text s =>
      have hsc : scanRefNamesF (HForest.cons (.text s) tl) = scanRefNamesF tl := by
        rw [scanRefNamesF, scanRefNamesN]
        simp
      rw [hsc] at hok
      have htl : AllHandlersF methods tl = false := by
        rcases hbad with h | h
        · exact absurd h (by simp [AllHandlersN])
        · exact h
      obtain ⟨ev, v, h2⟩ := ih erefs acc g hno.2 hok hnd htl
      refine ⟨ev, v, ?_⟩
      unfold processRootsF
      simp only [h2]
    | elem tag attrs cls ls ch =>
      have hno1 := hno.1
      rw [NoRegTagsN, Bool.and_eq_true] at hno1
      have hfind : Registry.find reg (strLower tag) = none := by
        simpa using hno1.1
      have hcomps : setCompsF reg methods cn ch acc g = (.ok (ch, acc), g) :=
        (setComps_noreg reg methods cn).2 ch acc g hno1.2
      have hsc : scanRefNamesF (HForest.cons (.elem tag attrs cls ls ch) tl) =
          scanRefNamesN (.elem tag attrs cls ls ch) ++ scanRefNamesF tl := rfl
      rw [hsc, ← List.append_assoc] at hok
      have hleft := hok.of_append_left
      obtain ⟨erefs1, h1⟩ :=
        (setRefs_total.1 (.elem tag attrs cls ls ch) erefs hnd).1 hleft
      have hkeys1 := setRefs_ok_keys.1 (.elem tag attrs cls ls ch) erefs erefs1 h1
      have hnd1 : (erefs1.map Prod.fst).Nodup := by
        rw [hkeys1]
        exact hleft
      by_cases hhd : AllHandlersN methods (.elem tag attrs cls ls ch) = true
      · have htl : AllHandlersF methods tl = false := by
          rcases hbad with h | h
          · exact absurd hhd (by rw [h]; simp)
          · exact h
        obtain ⟨node2, hev⟩ := (eventScan_ok_of_handlers methods).1 _ hhd
        obtain ⟨ev, v, h2⟩ := ih erefs1 acc g hno.2 (by rw [hkeys1]; exact hok) hnd1 htl
        refine ⟨ev, v, ?_⟩
        unfold processRootsF
        simp only [hfind, hcomps, h1, hev, h2]
      · obtain ⟨ev, v, herr⟩ := (eventScan_err_of_bad methods).1
          (.elem tag attrs cls ls ch) (by simpa using hhd)
        refine ⟨ev, v, ?_⟩
        unfold processRootsF
        simp only [hfind, hcomps, h1, herr]

/-- C4: a template that declares the same `ref` name twice in the
host's own scope (no nested component tags, all handlers resolvable)
makes construction fail with `DuplicateReferenceError`, leaving the
style state untouched, so no ref-map entries or style mutations for
that host persist. -/
theorem c4_duplicate_reference_rejected
    (fuel : Nat) (reg : Registry) (methodsOf : String → List String)
    (clsName : String) (params : Params) (g : GState)
    (entry : RegEntry) (ancNames : List String)
    (hfind : Registry.find reg (strLower clsName) = some entry)
    (hanc : ancestorNamesOf reg entry.ancestors = some ancNames)
    (hnoreg : NoRegTagsF reg entry.html = true)
    (hhand : AllHandlersF (methodsOf (strLower clsName)) entry.html = true)
    (hdup : ¬ (scanRefNamesF entry.html).Nodup) :
    ∃ x, construct (fuel+1) reg methodsOf clsName params g =
      (.error (.duplicateReference x), g) := by
  obtain ⟨x, herr⟩ := (processRoots_noreg reg (methodsOf (strLower clsName)) ancNames
      (fun c p g2 => construct fuel reg methodsOf c p g2) entry.html [] ⟨[], []⟩ g
      hnoreg hhand (by simp)).2 (by simpa using hdup)
  refine ⟨x, ?_⟩
  unfold construct
  simp only [hfind, hanc, herr]

theorem c4_duplicate_reference_rejected_witness :
    ∃ x, construct 1 dupRegistry noMethods "Dup" emptyParams GState.init =
      (.error (.duplicateReference x), GState.init) :=
  c4_duplicate_reference_rejected 0 dupRegistry noMethods "Dup" emptyParams GState.init
    dupEntry ["Dup", "Component"] rfl rfl rfl rfl (by decide)

/-- C3 (counterexample): a `Panel` template that first mounts a styled
nested `Card` and then hits an unresolvable `onClick` handler fails
with `MissingHandlerError`, yet the nested card's style acquisition
survives: the card style use-count stays at 1 and its style node stays
in the head — the failed construction leaks a persistent style-count
mutation, contradicting the claim. -/
theorem c3_counterexample_style_leak_on_failed_mount :
    (construct 5 panelBadRegistry noMethods "Panel" emptyParams GState.init).1 =
      .error (.missingHandler "click" "missingMethod") ∧
    (construct 5 panelBadRegistry noMethods "Panel" emptyParams GState.init).2.styleCount
      "card" = 1 ∧
    (construct 5 panelBadRegistry noMethods "Panel" emptyParams GState.init).2.head =
      ["card"] :=
  ⟨rfl, rfl, rfl⟩

/-- C3 (amended): when the failing template mounts no nested component
(no registered tag names) and its own refs are distinct, an
unresolvable `on`-prefixed handler makes construction fail with
`MissingHandlerError` and the style state is exactly the input state:
no listener survives and no style use-count was incremented. -/
theorem c3_amended_missing_handler_fails_cleanly
    (fuel : Nat) (reg : Registry) (methodsOf : String → List String)
    (clsName : String) (params : Params) (g : GState)
    (entry : RegEntry) (ancNames : List String)
    (hfind : Registry.find reg (strLower clsName) = some entry)
    (hanc : ancestorNamesOf reg entry.ancestors = some ancNames)
    (hnoreg : NoRegTagsF reg entry.html = true)
    (hnd : (scanRefNamesF entry.html).Nodup)
    (hbad : AllHandlersF (methodsOf (strLower clsName)) entry.html = false) :
    ∃ ev v, construct (fuel+1) reg methodsOf clsName params g =
      (.error (.missingHandler ev v), g) := by
  obtain ⟨ev, v, herr⟩ := processRoots_bad reg (methodsOf (strLower clsName)) ancNames
      (fun c p g2 => construct fuel reg methodsOf c p g2) entry.html [] ⟨[], []⟩ g
      hnoreg (by simpa using hnd) (by simp) hbad
  refine ⟨ev, v, ?_⟩
  unfold construct
  simp only [hfind, hanc, herr]

theorem c3_amended_missing_handler_fails_cleanly_witness :
    ∃ ev v, construct 1 badDivRegistry noMethods "Bad" emptyParams GState.init =
      (.error (.missingHandler ev v), GState.init) :=
  c3_amended_missing_handler_fails_cleanly 0 badDivRegistry noMethods "Bad" emptyParams
    GState.init badDivEntry ["Bad", "Component"] rfl rfl rfl (by decide) rfl


/-! # Class marking, ancestor naming and shape inversion helpers -/

theorem mem_classListAdd_of_mem (cls : List String) (c x : String) (h : x ∈ cls) :
    x ∈ classListAdd cls c := by
  unfold classListAdd
  split
  · exact h
  · exact List.mem_append.mpr (Or.inl h)

theorem self_mem_classListAdd (cls : List String) (c : String) :
    c ∈ classListAdd cls c := by
  unfold classListAdd
  split
  · next h => exact List.mem_of_elem_eq_true h
  · exact List.mem_append.mpr (Or.inr (by simp))

theorem mem_foldl_classListAdd_of_mem :
    ∀ (names cls : List String) (c : String), c ∈ cls →
    c ∈ names.foldl classListAdd cls := by
  intro names
  induction names with
  | nil => intro cls c h; simpa using h
  | cons a rest ih =>
    intro cls c h
    rw [List.foldl_cons]
    exact ih (classListAdd cls a) c (mem_classListAdd_of_mem cls a c h)

theorem mem_foldl_classListAdd :
    ∀ (names cls : List String) (c : String), c ∈ names →
    c ∈ names.foldl classListAdd cls := by
  intro names
  induction names with
  | nil => intro cls c h; simp at h
  | cons a rest ih =>
    intro cls c h
    rw [List.foldl_cons]
    rcases List.mem_cons.mp h with h | h
    · subst h
      exact mem_foldl_classListAdd_of_mem rest (classListAdd cls c) c
        (self_mem_classListAdd cls c)
    · exact ih (classListAdd cls a) c h

theorem ancestorNamesOf_mem :
    ∀ (reg : Registry) (keys names : List String),
    ancestorNamesOf reg keys = some names →
    ∀ k ∈ keys, ∃ e, Registry.find reg k = some e ∧ e.name ∈ names := by
  intro reg keys
  induction keys with
  | nil => intro names _ k hk; simp at hk
  | cons a rest ih =>
    intro names h k hk
    unfold ancestorNamesOf at h
    cases hfind : Registry.find reg a with
    | none =>
      rw [hfind] at h
      exact absurd h (by simp)
    | some e =>
      rw [hfind] at h
      simp only [] at h
      cases hrest : ancestorNamesOf reg rest with
      | none =>
        rw [hrest] at h
        exact absurd h (by simp [Option.map])
      | some l =>
        rw [hrest] at h
        have hn : names = e.name :: l := by
          have := h.symm
          simpa [Option.map] using this
        rcases List.mem_cons.mp hk with hka | hkr
        · subst hka
          exact ⟨e, hfind, by rw [hn]; simp⟩
        · obtain ⟨e2, hf2, hm2⟩ := ih l hrest k hkr
          exact ⟨e2, hf2, by rw [hn]; exact List.mem_cons.mpr (Or.inr hm2)⟩

theorem eventScanN_elem_shape (methods : List String) (tag : String)
    (attrs : List (String × String)) (cls : List String)
    (ls : List (String × String)) (ch : HForest) (n2 : HNode)
    (h : eventScanN methods (.elem tag attrs cls ls ch) = .ok n2) :
    ∃ ls2 ch2, n2 = .elem tag (attrs.filter (fun p => !(strStartsWith p.1 "on"))) cls ls2 ch2 := by
  unfold eventScanN at h
  cases hs : scanAttrs methods attrs with
  | error e =>
    rw [hs] at h
    exact absurd h (by simp)
  | ok pairs =>
    rw [hs] at h
    simp only [] at h
    cases hc : eventScanF methods ch with
    | error e =>
      rw [hc] at h
      exact absurd h (by simp)
    | ok ch1 =>
      rw [hc] at h
      simp only [] at h
      have h2 := Except.ok.inj h
      exact ⟨ls ++ pairs, ch1, h2.symm⟩

/-! # Scoped-instance helpers -/

theorem scoped_rootsMarked (reg : Registry) (i : Instance)
    (h : RefsScoped reg i) : RootsMarked i.rootNodes := by
  cases i with
  | mk k r roots comps erefs crefs =>
    exact h.2.2.1

theorem scoped_lookup_none (reg : Registry) (i : Instance)
    (h : RefsScoped reg i) (r : String)
    (hr : r ∉ allRefNamesF (templateOf reg i.typeKey)) :
    i.elementLookup r = none ∧ i.componentLookup r = none := by
  cases i with
  | mk k rf roots comps erefs crefs =>
    obtain ⟨hcr, herefs, _, _⟩ := h
    constructor
    · show List.lookup r erefs = none
      rw [lookup_eq_none_iff]
      intro hkey
      obtain ⟨p, hp, hp1⟩ := List.mem_map.mp hkey
      exact hr (hp1 ▸ herefs p hp)
    · show CompRefs.lookup crefs r = none
      rw [hcr]
      rfl

theorem refsScopedL_toList (reg : Registry) :
    ∀ l : InstList, RefsScopedL reg l → ∀ c ∈ l.toList, RefsScoped reg c := by
  have key := instance_mutual_induction (fun _ => True)
    (fun l => RefsScopedL reg l → ∀ c ∈ l.toList, RefsScoped reg c)
    (fun _ _ _ _ _ _ _ => trivial)
    (by intro h c hc; simp [InstList.toList] at hc)
    (by
      intro c rest _ ih h x hx
      rw [InstList.toList] at hx
      rcases List.mem_cons.mp hx with hx | hx
      · subst hx
        exact h.1
      · exact ih h.2 x hx)
  exact key.2

theorem refsScopedL_of_toInstList (reg : Registry) :
    ∀ l : List Instance, (∀ c ∈ l, RefsScoped reg c) → RefsScopedL reg (toInstList l) := by
  intro l
  induction l with
  | nil => intro _; trivial
  | cons c rest ih =>
    intro h
    exact ⟨h c (by simp), ih (fun x hx => h x (by simp [hx]))⟩

theorem toList_toInstList :
    ∀ l : List Instance, (toInstList l).toList = l := by
  intro l
  induction l with
  | nil => rfl
  | cons c rest ih =>
    rw [toInstList, InstList.toList, ih]


/-! # `_setComponents` keeps nested interiors opaque and records no
component ref (the ref is read from the empty params map) -/

theorem setComps_scoped (reg : Registry) (methods : List String)
    (cn : String → Params → GState → (Except CErr Instance) × GState)
    (Hcn : ∀ c p g i g2, cn c p g = (.ok i, g2) → RefsScoped reg i) :
    (∀ n, ∀ (acc : HostAcc) (g : GState) (hf : HForest) (acc1 : HostAcc) (g1 : GState),
      setCompsN reg methods cn n acc g = (.ok (hf, acc1), g1) →
      (∀ x ∈ scanRefNamesF hf, x ∈ scanRefNamesN n) ∧
      acc1.componentRefs = acc.componentRefs ∧
      (∀ c ∈ acc1.components, c ∈ acc.components ∨ RefsScoped reg c)) ∧
    (∀ f, ∀ (acc : HostAcc) (g : GState) (hf : HForest) (acc1 : HostAcc) (g1 : GState),
      setCompsF reg methods cn f acc g = (.ok (hf, acc1), g1) →
      (∀ x ∈ scanRefNamesF hf, x ∈ scanRefNamesF f) ∧
      acc1.componentRefs = acc.componentRefs ∧
      (∀ c ∈ acc1.components, c ∈ acc.components ∨ RefsScoped reg c)) := by
  apply hnode_mutual_induction
  · intro s acc g hf acc1 g1 h
    unfold setCompsN at h
    rw [Prod.mk.injEq] at h
    obtain ⟨h1, hg⟩ := h
    have h2 := Except.ok.inj h1
    rw [Prod.mk.injEq] at h2
    obtain ⟨hhf, hacc⟩ := h2
    subst hhf hacc
    refine ⟨?_, rfl, fun c hc => Or.inl hc⟩
    intro x hx
    rw [scanRefNamesF, scanRefNamesN, scanRefNamesF] at hx
    simp at hx
  · intro tag attrs cls ls ch ih acc g hf acc1 g1 h
    unfold setCompsN at h
    cases hfind : Registry.find reg (strLower tag) with
    | some entry =>
      rw [hfind] at h
      simp only [] at h
      cases hcn : cn entry.name (mkParams methods attrs ch) g with
      | mk r g2 =>
        cases r with
        | error e =>
          rw [hcn] at h
          exact absurd h (by simp)
        | ok inst =>
          rw [hcn] at h
          simp only [] at h
          have hinst := Hcn entry.name (mkParams methods attrs ch) g inst g2 hcn
          have hrefeq : (mkParams methods attrs ch).ref = "" := rfl
          rw [hrefeq] at h
          rw [if_neg (fun hne => hne rfl)] at h
          rw [Prod.mk.injEq] at h
          obtain ⟨h1, hg⟩ := h
          have h2 := Except.ok.inj h1
          rw [Prod.mk.injEq] at h2
          obtain ⟨hhf, hacc⟩ := h2
          subst hhf
          refine ⟨?_, ?_, ?_⟩
          · intro x hx
            rw [scanRefNames_nil_of_marked inst.rootNodes
              (scoped_rootsMarked reg inst hinst)] at hx
            simp at hx
          · rw [← hacc]
          · intro c hc
            rw [← hacc] at hc
            rcases List.mem_append.mp hc with hc | hc
            · exact Or.inl hc
            · rw [List.mem_singleton] at hc
              subst hc
              exact Or.inr hinst
    | none =>
      rw [hfind] at h
      simp only [] at h
      cases hch : setCompsF reg methods cn ch acc g with
      | mk r g2 =>
        cases r with
        | error e =>
          rw [hch] at h
          exact absurd h (by simp)
        | ok pr =>
          obtain ⟨ch1, acc2⟩ := pr
          rw [hch] at h
          simp only [] at h
          obtain ⟨hsub, hcrefs, hcomps⟩ := ih acc g ch1 acc2 g2 hch
          rw [Prod.mk.injEq] at h
          obtain ⟨h1, hg⟩ := h
          have h2 := Except.ok.inj h1
          rw [Prod.mk.injEq] at h2
          obtain ⟨hhf, hacc⟩ := h2
          subst hhf hacc
          refine ⟨?_, hcrefs, hcomps⟩
          intro x hx
          rw [scanRefNamesF, scanRefNamesF] at hx
          rw [List.append_nil] at hx
          rw [scanRefNamesN] at hx ⊢
          by_cases hcl : cls.contains "Component" = true
          · rw [if_pos hcl] at hx
            simp at hx
          · rw [if_neg hcl] at hx ⊢
            rcases List.mem_append.mp hx with hx | hx
            · exact List.mem_append.mpr (Or.inl hx)
            · exact List.mem_append.mpr (Or.inr (hsub x hx))
  · intro acc g hf acc1 g1 h
    unfold setCompsF at h
    rw [Prod.mk.injEq] at h
    obtain ⟨h1, hg⟩ := h
    have h2 := Except.ok.inj h1
    rw [Prod.mk.injEq] at h2
    obtain ⟨hhf, hacc⟩ := h2
    subst hhf hacc
    refine ⟨?_, rfl, fun c hc => Or.inl hc⟩
    intro x hx
    rw [scanRefNamesF] at hx
    simp at hx
  · intro hd tl ihn ihf acc g hf acc1 g1 h
    unfold setCompsF at h
    cases hhd : setCompsN reg methods cn hd acc g with
    | mk r g2 =>
      cases r with
      | error e =>
        rw [hhd] at h
        exact absurd h (by simp)
      | ok pr =>
        obtain ⟨hf1, acc2⟩ := pr
        rw [hhd] at h
        simp only [] at h
        cases htl : setCompsF reg methods cn tl acc2 g2 with
        | mk r2 g3 =>
          cases r2 with
          | error e =>
            rw [htl] at h
            exact absurd h (by simp)
          | ok pr2 =>
            obtain ⟨tf, acc3⟩ := pr2
            rw [htl] at h
            simp only [] at h
            obtain ⟨hsub1, hcrefs1, hcomps1⟩ := ihn acc g hf1 acc2 g2 hhd
            obtain ⟨hsub2, hcrefs2, hcomps2⟩ := ihf acc2 g2 tf acc3 g3 htl
            rw [Prod.mk.injEq] at h
            obtain ⟨h1, hg⟩ := h
            have h2 := Except.ok.inj h1
            rw [Prod.mk.injEq] at h2
            obtain ⟨hhf, hacc⟩ := h2
            subst hhf hacc
            refine ⟨?_, hcrefs2.trans hcrefs1, ?_⟩
            · intro x hx
              rw [scanRefNamesF_append] at hx
              rw [show scanRefNamesF (.cons hd tl) =
                scanRefNamesN hd ++ scanRefNamesF tl from rfl]
              rcases List.mem_append.mp hx with hx | hx
              · exact List.mem_append.mpr (Or.inl (hsub1 x hx))
              · exact List.mem_append.mpr (Or.inr (hsub2 x hx))
            · intro c hc
              rcases hcomps2 c hc with hc2 | hc2
              · exact hcomps1 c hc2
              · exact Or.inr hc2


/-! # Root processing keeps refs inside the host template and marks
every produced root with the `Component` class -/

theorem processRoots_scoped (reg : Registry) (methods : List String)
    (ancNames : List String)
    (cn : String → Params → GState → (Except CErr Instance) × GState)
    (Hcn : ∀ c p g i g2, cn c p g = (.ok i, g2) → RefsScoped reg i)
    (hcm : "Component" ∈ ancNames) :
    ∀ f : HForest, ∀ (erefs : List (String × HNode)) (acc : HostAcc) (g : GState)
      (roots1 : HForest) (erefs1 : List (String × HNode)) (acc1 : HostAcc) (g1 : GState),
    processRootsF reg methods ancNames cn f erefs acc g = (.ok (roots1, erefs1, acc1), g1) →
    (∀ x ∈ erefs1.map Prod.fst, x ∈ erefs.map Prod.fst ++ scanRefNamesF f) ∧
    acc1.componentRefs = acc.componentRefs ∧
    (∀ c ∈ acc1.components, c ∈ acc.components ∨ RefsScoped reg c) ∧
    RootsMarked roots1 := by
  apply hforest_spine_induction
  · intro erefs acc g roots1 erefs1 acc1 g1 h
    unfold processRootsF at h
    rw [Prod.mk.injEq] at h
    obtain ⟨h1, hg⟩ := h
    have h2 := Except.ok.inj h1
    rw [Prod.mk.injEq] at h2
    obtain ⟨hroots, h3⟩ := h2
    rw [Prod.mk.injEq] at h3
    obtain ⟨herefs, hacc⟩ := h3
    subst hroots herefs hacc
    exact ⟨fun x hx => List.mem_append.mpr (Or.inl hx), rfl,
      fun c hc => Or.inl hc, trivial⟩
  · intro hd tl ih erefs acc g roots1 erefs1 acc1 g1 h
    cases hd with
    | text s =>
      unfold processRootsF at h
      cases hrec : processRootsF reg methods ancNames cn tl erefs acc g with
      | mk r g2 =>
        cases r with
        | error e =>
          rw [hrec] at h
          exact absurd h (by simp)
        | ok tr =>
          obtain ⟨tl1, erefs2, acc2⟩ := tr
          rw [hrec] at h
          simp only [] at h
          rw [Prod.mk.injEq] at h
          obtain ⟨h1, hg⟩ := h
          have h2 := Except.ok.inj h1
          rw [Prod.mk.injEq] at h2
          obtain ⟨hroots, h3⟩ := h2
          rw [Prod.mk.injEq] at h3
          obtain ⟨herefs, hacc⟩ := h3
          subst hroots herefs hacc
          obtain ⟨hsub, hcrefs, hcomps, hmk⟩ := ih erefs acc g tl1 erefs2 acc2 g2 hrec
          exact ⟨fun x hx => hsub x hx, hcrefs, hcomps, ⟨trivial, hmk⟩⟩
    | elem tag attrs cls ls ch =>
      unfold processRootsF at h
      simp only [] at h
      cases hfind : Registry.find reg (strLower tag) with
      | some entry =>
        rw [hfind] at h
        simp only [] at h
        cases hcn2 : cn entry.name (mkParams methods attrs ch) g with
        | mk r gA =>
          cases r with
          | error e =>
            rw [hcn2] at h
            exact absurd h (by simp)
          | ok inst =>
            rw [hcn2] at h
            simp only [] at h
            have hinst := Hcn entry.name (mkParams methods attrs ch) g inst gA hcn2
            have hrefeq : (mkParams methods attrs ch).ref = "" := rfl
            rw [hrefeq] at h
            rw [if_neg (fun hne => hne rfl)] at h
            cases hsr : setRefsN erefs (HNode.elem tag attrs cls ls .nil) with
            | error e =>
              rw [hsr] at h
              exact absurd h (by simp)
            | ok erefsA =>
              rw [hsr] at h
              simp only [] at h
              cases hev : eventScanN methods (HNode.elem tag attrs cls ls .nil) with
              | error e =>
                rw [hev] at h
                exact absurd h (by simp)
              | ok node2 =>
                rw [hev] at h
                simp only [] at h
                cases hrec : processRootsF reg methods ancNames cn tl erefsA
                    ⟨acc.components ++ [inst], acc.componentRefs⟩ gA with
                | mk r2 gB =>
                  cases r2 with
                  | error e =>
                    rw [hrec] at h
                    exact absurd h (by simp)
                  | ok tr =>
                    obtain ⟨tl1, erefs2, acc2⟩ := tr
                    rw [hrec] at h
                    simp only [] at h
                    rw [Prod.mk.injEq] at h
                    obtain ⟨h1, hg⟩ := h
                    have h2 := Except.ok.inj h1
                    rw [Prod.mk.injEq] at h2
                    obtain ⟨hroots, h3⟩ := h2
                    rw [Prod.mk.injEq] at h3
                    obtain ⟨herefs, hacc⟩ := h3
                    subst hroots herefs hacc
                    obtain ⟨hsub, hcrefs, hcomps, hmk⟩ :=
                      ih erefsA ⟨acc.components ++ [inst], acc.componentRefs⟩ gA
                        tl1 erefs2 acc2 gB hrec
                    have hkeysA := setRefs_ok_keys.1 (HNode.elem tag attrs cls ls .nil)
                      erefs erefsA hsr
                    have hsubnode : ∀ x ∈ scanRefNamesN (HNode.elem tag attrs cls ls .nil),
                        x ∈ scanRefNamesN (HNode.elem tag attrs cls ls ch) := by
                      intro x hx
                      rw [scanRefNamesN] at hx ⊢
                      by_cases hcl : cls.contains "Component" = true
                      · rw [if_pos hcl] at hx
                        simp at hx
                      · rw [if_neg hcl] at hx ⊢
                        rcases List.mem_append.mp hx with hx | hx
                        · exact List.mem_append.mpr (Or.inl hx)
                        · rw [scanRefNamesF] at hx
                          simp at hx
                    refine ⟨?_, hcrefs, ?_, ?_⟩
                    · intro x hx
                      rcases List.mem_append.mp (hkeysA ▸ hsub x hx) with hx2 | hx2
                      · rcases List.mem_append.mp hx2 with hx3 | hx3
                        · exact List.mem_append.mpr (Or.inl hx3)
                        · exact List.mem_append.mpr (Or.inr
                            (List.mem_append.mpr (Or.inl (hsubnode x hx3))))
                      · exact List.mem_append.mpr (Or.inr (List.mem_append.mpr (Or.inr hx2)))
                    · intro c hc
                      rcases hcomps c hc with hc2 | hc2
                      · rcases List.mem_append.mp hc2 with hc3 | hc3
                        · exact Or.inl hc3
                        · rw [List.mem_singleton] at hc3
                          subst hc3
                          exact Or.inr hinst
                      · exact Or.inr hc2
                    · obtain ⟨ls2, ch2, hn2⟩ := eventScanN_elem_shape methods tag attrs cls
                        ls .nil node2 hev
                      subst hn2
                      refine ⟨?_, hmk⟩
                      show "Component" ∈ ancNames.foldl classListAdd cls
                      exact mem_foldl_classListAdd ancNames cls "Component" hcm
      | none =>
        rw [hfind] at h
        simp only [] at h
        cases hsc2 : setCompsF reg methods cn ch acc g with
        | mk r gA =>
          cases r with
          | error e =>
            rw [hsc2] at h
            exact absurd h (by simp)
          | ok pr =>
            obtain ⟨ch1, accA⟩ := pr
            rw [hsc2] at h
            simp only [] at h
            obtain ⟨hsubch, hcrefsA, hcompsA⟩ :=
              (setComps_scoped reg methods cn Hcn).2 ch acc g ch1 accA gA hsc2
            cases hsr : setRefsN erefs (HNode.elem tag attrs cls ls ch1) with
            | error e =>
              rw [hsr] at h
              exact absurd h (by simp)
            | ok erefsA =>
              rw [hsr] at h
              simp only [] at h
              cases hev : eventScanN methods (HNode.elem tag attrs cls ls ch1) with
              | error e =>
                rw [hev] at h
                exact absurd h (by simp)
              | ok node2 =>
                rw [hev] at h
                simp only [] at h
                cases hrec : processRootsF reg methods ancNames cn tl erefsA accA gA with
                | mk r2 gB =>
                  cases r2 with
                  | error e =>
                    rw [hrec] at h
                    exact absurd h (by simp)
                  | ok tr =>
                    obtain ⟨tl1, erefs2, acc2⟩ := tr
                    rw [hrec] at h
                    simp only [] at h
                    rw [Prod.mk.injEq] at h
                    obtain ⟨h1, hg⟩ := h
                    have h2 := Except.ok.inj h1
                    rw [Prod.mk.injEq] at h2
                    obtain ⟨hroots, h3⟩ := h2
                    rw [Prod.mk.injEq] at h3
                    obtain ⟨herefs, hacc⟩ := h3
                    subst hroots herefs hacc
                    obtain ⟨hsub, hcrefs, hcomps, hmk⟩ :=
                      ih erefsA accA gA tl1 erefs2 acc2 gB hrec
                    have hkeysA := setRefs_ok_keys.1 (HNode.elem tag attrs cls ls ch1)
                      erefs erefsA hsr
                    have hsubnode : ∀ x ∈ scanRefNamesN (HNode.elem tag attrs cls ls ch1),
                        x ∈ scanRefNamesN (HNode.elem tag attrs cls ls ch) := by
                      intro x hx
                      rw [scanRefNamesN] at hx ⊢
                      by_cases hcl : cls.contains "Component" = true
                      · rw [if_pos hcl] at hx
                        simp at hx
                      · rw [if_neg hcl] at hx ⊢
                        rcases List.mem_append.mp hx with hx | hx
                        · exact List.mem_append.mpr (Or.inl hx)
                        · exact List.mem_append.mpr (Or.inr (hsubch x hx))
                    refine ⟨?_, hcrefs.trans hcrefsA, ?_, ?_⟩
                    · intro x hx
                      rcases List.mem_append.mp (hkeysA ▸ hsub x hx) with hx2 | hx2
                      · rcases List.mem_append.mp hx2 with hx3 | hx3
                        · exact List.mem_append.mpr (Or.inl hx3)
                        · exact List.mem_append.mpr (Or.inr
                            (List.mem_append.mpr (Or.inl (hsubnode x hx3))))
                      · exact List.mem_append.mpr (Or.inr (List.mem_append.mpr (Or.inr hx2)))
                    · intro c hc
                      rcases hcomps c hc with hc2 | hc2
                      · exact hcompsA c hc2
                      · exact Or.inr hc2
                    · obtain ⟨ls2, ch2, hn2⟩ := eventScanN_elem_shape methods tag attrs cls
                        ls ch1 node2 hev
                      subst hn2
                      refine ⟨?_, hmk⟩
                      show "Component" ∈ ancNames.foldl classListAdd cls
                      exact mem_foldl_classListAdd ancNames cls "Component" hcm


/-! # Every successfully constructed instance is reference-scoped -/

theorem construct_scoped :
    ∀ fuel : Nat, ∀ (reg : Registry) (methodsOf : String → List String)
      (clsName : String) (params : Params) (g : GState) (inst : Instance) (g1 : GState),
    RegWF reg →
    construct fuel reg methodsOf clsName params g = (.ok inst, g1) →
    RefsScoped reg inst := by
  intro fuel
  induction fuel with
  | zero =>
    intro reg methodsOf clsName params g inst g1 _ h
    exact absurd h (by simp [construct])
  | succ fuel ih =>
    intro reg methodsOf clsName params g inst g1 hwf h
    unfold construct at h
    cases hfind : Registry.find reg (strLower clsName) with
    | none =>
      rw [hfind] at h
      exact absurd h (by simp)
    | some entry =>
      rw [hfind] at h
      simp only [] at h
      cases hanc : ancestorNamesOf reg entry.ancestors with
      | none =>
        rw [hanc] at h
        exact absurd h (by simp)
      | some ancNames =>
        rw [hanc] at h
        simp only [] at h
        have Hcn : ∀ c p g2 i g3,
            (fun c p g2 => construct fuel reg methodsOf c p g2) c p g2 = (.ok i, g3) →
            RefsScoped reg i :=
          fun c p g2 i g3 hc => ih reg methodsOf c p g2 i g3 hwf hc
        have hcm : "Component" ∈ ancNames := by
          obtain ⟨e, hfe, hne⟩ := ancestorNamesOf_mem reg entry.ancestors ancNames hanc
            "component" (hwf.base_mem (strLower clsName) entry hfind)
          rw [hwf.base_name e hfe] at hne
          exact hne
        cases hpr : processRootsF reg (methodsOf (strLower clsName)) ancNames
            (fun c p g2 => construct fuel reg methodsOf c p g2)
            entry.html [] ⟨[], []⟩ g with
        | mk res gA =>
          cases res with
          | error e =>
            rw [hpr] at h
            exact absurd h (by simp)
          | ok triple =>
            obtain ⟨roots1, erefs1, acc1⟩ := triple
            rw [hpr] at h
            simp only [] at h
            obtain ⟨hsub, hcrefs, hcomps, hmk⟩ := processRoots_scoped reg
              (methodsOf (strLower clsName)) ancNames
              (fun c p g2 => construct fuel reg methodsOf c p g2) Hcn hcm
              entry.html [] ⟨[], []⟩ g roots1 erefs1 acc1 gA hpr
            have hkeys_sub : ∀ x ∈ erefs1.map Prod.fst, x ∈ scanRefNamesF entry.html := by
              intro x hx
              have h2 := hsub x hx
              simpa using h2
            have hcontent : List.lookup "content" erefs1 = none := by
              rw [lookup_eq_none_iff]
              intro hx
              exact hwf.no_content (strLower clsName) entry hfind
                (scanRefNames_sub_allRefNames.2 entry.html "content"
                  (hkeys_sub "content" hx))
            rw [hcontent] at h
            simp only [Option.isSome_none, Bool.false_eq_true, if_false] at h
            rw [Prod.mk.injEq] at h
            obtain ⟨h1, hg⟩ := h
            have h2 := Except.ok.inj h1
            rw [← h2]
            refine ⟨?_, ?_, hmk, ?_⟩
            · have hc0 : acc1.componentRefs = [] := hcrefs
              rw [hc0]
              rfl
            · intro p hp
              show p.1 ∈ allRefNamesF (templateOf reg (strLower clsName))
              rw [templateOf, hfind]
              exact scanRefNames_sub_allRefNames.2 entry.html p.1
                (hkeys_sub p.1 (List.mem_map.mpr ⟨p, hp, rfl⟩))
            · apply refsScopedL_of_toInstList
              intro c hc
              rcases hcomps c hc with hc2 | hc2
              · simp at hc2
              · exact hc2

/-- C7: for a well-formed registry (every entry chains to the common
base named `Component` and no template uses the reserved `content`
ref), any successfully mounted instance answers `null` to element and
component lookups for every name not declared in its own type's
template — so the host never sees a nested component's internal refs —
and the same holds for every owned nested component, which therefore
never sees the host's refs under a different template. -/
theorem c7_nested_refs_isolated
    (fuel : Nat) (reg : Registry) (methodsOf : String → List String)
    (clsName : String) (params : Params) (g : GState) (inst : Instance) (g1 : GState)
    (hwf : RegWF reg)
    (hok : construct fuel reg methodsOf clsName params g = (.ok inst, g1)) :
    (∀ r, r ∉ allRefNamesF (templateOf reg inst.typeKey) →
      inst.elementLookup r = none ∧ inst.componentLookup r = none) ∧
    (∀ c ∈ inst.components.toList, ∀ r, r ∉ allRefNamesF (templateOf reg c.typeKey) →
      c.elementLookup r = none ∧ c.componentLookup r = none) := by
  have hs := construct_scoped fuel reg methodsOf clsName params g inst g1 hwf hok
  constructor
  · intro r hr
    exact scoped_lookup_none reg inst hs r hr
  · intro c hc r hr
    have hsc : RefsScoped reg c := by
      cases inst with
      | mk k rf roots comps erefs crefs =>
        exact refsScopedL_toList reg comps hs.2.2.2 c hc
    exact scoped_lookup_none reg c hsc r hr

theorem panelRegistry_find_cases (k : String) (e : RegEntry)
    (h : Registry.find panelRegistry k = some e) :
    (k = "panel" ∧ e = panelEntry) ∨ (k = "card" ∧ e = cardEntry) ∨
      (k = "component" ∧ e = baseEntry) := by
  by_cases h1 : k = "panel"
  · subst h1
    refine Or.inl ⟨rfl, ?_⟩
    have h2 : some panelEntry = some e := by rw [← h]; rfl
    exact (Option.some.inj h2).symm
  · by_cases h2 : k = "card"
    · subst h2
      refine Or.inr (Or.inl ⟨rfl, ?_⟩)
      have h3 : some cardEntry = some e := by rw [← h]; rfl
      exact (Option.some.inj h3).symm
    · by_cases h3 : k = "component"
      · subst h3
        refine Or.inr (Or.inr ⟨rfl, ?_⟩)
        have h4 : some baseEntry = some e := by rw [← h]; rfl
        exact (Option.some.inj h4).symm
      · exfalso
        have e1 : (k == "panel") = false := beq_eq_false_iff_ne.mpr h1
        have e2 : (k == "card") = false := beq_eq_false_iff_ne.mpr h2
        have e3 : (k == "component") = false := beq_eq_false_iff_ne.mpr h3
        have hn : Registry.find panelRegistry k = none := by
          show List.lookup k _ = none
          simp [panelRegistry, List.lookup, e1, e2, e3]
        rw [hn] at h
        exact Option.noConfusion h

theorem panelRegistry_wf : RegWF panelRegistry := by
  refine ⟨?_, ?_, ?_⟩
  · intro k e h
    rcases panelRegistry_find_cases k e h with ⟨_, he⟩ | ⟨_, he⟩ | ⟨_, he⟩ <;>
      subst he <;> decide
  · intro e h
    rcases panelRegistry_find_cases "component" e h with ⟨hk, _⟩ | ⟨hk, _⟩ | ⟨_, he⟩
    · exact absurd hk (by decide)
    · exact absurd hk (by decide)
    · subst he
      rfl
  · intro k e h
    rcases panelRegistry_find_cases k e h with ⟨_, he⟩ | ⟨_, he⟩ | ⟨_, he⟩ <;>
      subst he <;> decide

theorem c7_nested_refs_isolated_witness :
    ∃ inst g1,
      construct 5 panelRegistry noMethods "Panel" emptyParams GState.init = (.ok inst, g1) ∧
      inst.elementLookup "zz" = none ∧ inst.componentLookup "zz" = none := by
  cases hx : construct 5 panelRegistry noMethods "Panel" emptyParams GState.init with
  | mk res g1 =>
    cases res with
    | error e =>
      exfalso
      have hsome :
          (construct 5 panelRegistry noMethods "Panel"
            emptyParams GState.init).1.toOption.isSome = true := rfl
      rw [hx] at hsome
      simp [Except.toOption] at hsome
    | ok inst =>
      have hth := c7_nested_refs_isolated 5 panelRegistry noMethods "Panel" emptyParams
        GState.init inst g1 panelRegistry_wf hx
      have hkey : inst.typeKey = "panel" := by
        have h1 : (construct 5 panelRegistry noMethods "Panel"
            emptyParams GState.init).1.map Instance.typeKey = .ok "panel" := rfl
        rw [hx] at h1
        simpa [Except.map] using h1
      have hzz : "zz" ∉ allRefNamesF (templateOf panelRegistry inst.typeKey) := by
        rw [hkey]
        decide
      exact ⟨inst, g1, rfl, (hth.1 "zz" hzz).1, (hth.1 "zz" hzz).2⟩

end AppJs
